import Mathlib

/-!
Verification of the filename-generation pipeline of the Realic advance-rename
bot (files `src/utils/template_engine.py` and `src/utils/file_processor.py`).

Python strings are modelled as `List Char`; every Python string operation used
by the pipeline is translated into an executable Lean function on `List Char`.
Character classes follow Python's ASCII behaviour (the repository only ever
feeds filenames through them).  Definitions that the source writes with
unbounded loops or regex scans are written with structural recursion on an
explicit fuel argument equal to the input length, which the loops never
exhaust; the accompanying lemmas show the fuel is irrelevant above the input
length where that matters.
-/

/-- Shorthand turning a Lean string literal into the `List Char` model used
throughout this development. -/
def str (s : String) : List Char := s.toList

/-- The opening brace character of a template placeholder. -/
def lbrace : Char := Char.ofNat 123

/-- The closing brace character of a template placeholder. -/
def rbrace : Char := Char.ofNat 125

/-- Characters treated as whitespace by Python's `str.strip()` and the regex
class backslash-s (ASCII part): space, tab, newline, carriage return, form
feed, vertical tab. -/
def isPySpace (c : Char) : Bool :=
  c = ' ' || c = '\t' || c = '\n' || c = '\r' || c = Char.ofNat 12 || c = Char.ofNat 11

/-- The invalid filename characters replaced by underscores in both
sanitisation routines (`'<>:"/\\|?*'` in the source). -/
def invalidChars : List Char := ['<', '>', ':', '"', '/', '\\', '|', '?', '*']

/-- Python `s.replace(old, new)` for a single-character pattern: a character
map. -/
def replaceChar (old new : Char) (s : List Char) : List Char :=
  s.map (fun c => if c = old then new else c)

/-- The loop `for char in invalid_chars: filename = filename.replace(char, '_')`
shared by `_clean_filename` and `_sanitize_filename`. -/
def replaceInvalid (s : List Char) : List Char :=
  invalidChars.foldl (fun acc c => replaceChar c '_' acc) s

/-- Run collapsing shared by the two `re.sub` calls of `_clean_filename`:
every maximal run of characters satisfying `p` becomes the single character
`rep`.  The flag records whether the previous character was part of such a
run. -/
def collapseRunsAux (p : Char → Bool) (rep : Char) : Bool → List Char → List Char
  | _, [] => []
  | prev, c :: rest =>
    if p c then
      (if prev then [] else [rep]) ++ collapseRunsAux p rep true rest
    else c :: collapseRunsAux p rep false rest

/-- First step of `_clean_filename`: `re.sub(r'\s+', ' ', filename)` — every
maximal run of whitespace becomes a single space. -/
def collapseWs (s : List Char) : List Char := collapseRunsAux isPySpace ' ' false s

/-- The `re.sub(r'_{2,}', '_', filename)` step of `_clean_filename`: every
maximal run of two or more underscores becomes a single underscore (runs of
length one are unchanged, which the same recursion also produces). -/
def collapseUnd (s : List Char) : List Char :=
  collapseRunsAux (fun c => c = '_') '_' false s

/-- Python `s.strip(chars)`: remove leading and trailing characters belonging
to `set`. -/
def stripChars (set : List Char) (s : List Char) : List Char :=
  (((s.dropWhile (fun c => set.contains c)).reverse.dropWhile
      (fun c => set.contains c)).reverse)

/-- Python `s.strip()` with no argument: strip whitespace. -/
def stripWs (s : List Char) : List Char :=
  ((s.dropWhile isPySpace).reverse.dropWhile isPySpace).reverse

/-- `TemplateEngine._clean_filename`: collapse whitespace runs, strip leading
and trailing spaces, hyphens and underscores, replace invalid characters by
underscores, collapse underscore runs, truncate to 200 characters. -/
def cleanFilename (s : List Char) : List Char :=
  ((collapseUnd (replaceInvalid (stripChars [' ', '-', '_'] (collapseWs s)))).take 200)

/-- One round of Python `s.replace('__', '_')`: left-to-right non-overlapping
replacement of double underscores by single ones. -/
def replaceDouble : List Char → List Char
  | [] => []
  | [c] => [c]
  | c :: d :: rest =>
    if c = '_' ∧ d = '_' then '_' :: replaceDouble rest
    else c :: replaceDouble (d :: rest)

/-- Decides Python `'__' in s`. -/
def containsDouble : List Char → Bool
  | [] => false
  | [_] => false
  | c :: d :: rest => (c = '_' && d = '_') || containsDouble (d :: rest)

/-- The loop `while '__' in filename: filename = filename.replace('__', '_')`
of `_sanitize_filename`, run with explicit fuel (each firing iteration
strictly shortens the string, so `length + 1` units of fuel are never
exhausted). -/
def collapseLoop : Nat → List Char → List Char
  | 0, s => s
  | fuel + 1, s => if containsDouble s then collapseLoop fuel (replaceDouble s) else s

/-- `FileProcessor._sanitize_filename` without its final `or "renamed_file"`
fallback: replace invalid characters, collapse double underscores to
exhaustion, strip underscores then whitespace, truncate to 200 characters. -/
def sanitizeCore (s : List Char) : List Char :=
  (stripWs (stripChars ['_'] (collapseLoop ((replaceInvalid s).length + 1)
      (replaceInvalid s)))).take 200

/-- `FileProcessor._sanitize_filename` (the ManualStrict profile): the core
steps followed by `return filename or "renamed_file"`. -/
def sanitizeFilename (s : List Char) : List Char :=
  if sanitizeCore s = [] then str "renamed_file" else sanitizeCore s

/-- Python `s.replace(old, new)` scan for a non-empty pattern `p :: ps`:
left-to-right, non-overlapping, each match consumed whole.  The fuel is the
length of the remaining input (each step consumes at least one character). -/
def replaceAllAux (p : Char) (ps rep : List Char) : Nat → List Char → List Char
  | _, [] => []
  | 0, s => s
  | fuel + 1, c :: rest =>
    if (p :: ps).isPrefixOf (c :: rest) then
      rep ++ replaceAllAux p ps rep fuel (rest.drop ps.length)
    else c :: replaceAllAux p ps rep fuel rest

/-- Python `s.replace(pat, rep)`, including the empty-pattern behaviour
(`rep` inserted before every character and at the end). -/
def replaceAll (pat rep s : List Char) : List Char :=
  match pat with
  | [] => rep ++ s.flatMap (fun c => c :: rep)
  | p :: ps => replaceAllAux p ps rep s.length s

/-- Python `re.sub(r'\{([^}]+)\}', '', s)` from `apply_template`: scanning
left to right, each brace group with a non-empty `}`-free interior is removed;
a `{` with no such group starting at it is kept and scanning resumes at the
next character.  Fuel is the input length. -/
def removeBraceAux : Nat → List Char → List Char
  | _, [] => []
  | 0, s => s
  | fuel + 1, c :: rest =>
    if c = lbrace then
      match rest.dropWhile (fun y => y ≠ rbrace) with
      | _ :: tail =>
        if rest.takeWhile (fun y => y ≠ rbrace) = [] then c :: removeBraceAux fuel rest
        else removeBraceAux fuel tail
      | [] => c :: removeBraceAux fuel rest
    else c :: removeBraceAux fuel rest

/-- The `self.variable_pattern.sub('', result)` cleanup pass of
`apply_template`. -/
def removeBraceGroups (s : List Char) : List Char := removeBraceAux s.length s

/-- Python `re.findall(r'\{([^}]+)\}', s)` from `extract_variables`: the list
of interiors of the brace groups found by the same scan as
`removeBraceAux`. -/
def findVarsAux : Nat → List Char → List (List Char)
  | _, [] => []
  | 0, _ => []
  | fuel + 1, c :: rest =>
    if c = lbrace then
      match rest.dropWhile (fun y => y ≠ rbrace), rest.takeWhile (fun y => y ≠ rbrace) with
      | _ :: tail, q :: qs => (q :: qs) :: findVarsAux fuel tail
      | _, _ => findVarsAux fuel rest
    else findVarsAux fuel rest

/-- Deduplication keeping first occurrences; models `list(set(matches))` of
`extract_variables` with a deterministic order (the claims treat the order as
not significant). -/
def dedupAux (seen : List (List Char)) : List (List Char) → List (List Char)
  | [] => []
  | x :: rest => if x ∈ seen then dedupAux seen rest else x :: dedupAux (x :: seen) rest

/-- `TemplateEngine.extract_variables`: find all placeholder names and
deduplicate them. -/
def extractVariables (t : List Char) : List (List Char) :=
  dedupAux [] (findVarsAux t.length t)

/-- `TemplateEngine.apply_template`: empty templates yield `"renamed_file"`;
otherwise each `(name, value)` pair of the variable mapping is applied in
insertion order as a literal replacement of `"{name}"`, remaining brace groups
are removed, the result is cleaned, and an empty result falls back to
`"renamed_file"`. -/
def applyTemplate (t : List Char) (vars : List (List Char × List Char)) : List Char :=
  if t = [] then str "renamed_file"
  else
    match cleanFilename (removeBraceGroups
        (vars.foldl (fun acc nv => replaceAll (lbrace :: nv.1 ++ [rbrace]) nv.2 acc) t)) with
    | [] => str "renamed_file"
    | c :: rest => c :: rest

/-- Matches the regex class `[a-zA-Z_]` heading a valid template variable
name in `validate_template`. -/
def isIdentStart (c : Char) : Bool :=
  decide (('a' ≤ c ∧ c ≤ 'z') ∨ ('A' ≤ c ∧ c ≤ 'Z') ∨ c = '_')

/-- Matches the regex class `[a-zA-Z0-9_]` of the variable-name grammar. -/
def isIdentChar (c : Char) : Bool :=
  isIdentStart c || decide ('0' ≤ c ∧ c ≤ '9')

/-- A string matching `[a-zA-Z_][a-zA-Z0-9_]*` entirely. -/
def isIdentCore : List Char → Bool
  | [] => false
  | c :: rest => isIdentStart c && rest.all isIdentChar

/-- What Python's `re.match(r'^[a-zA-Z_][a-zA-Z0-9_]*$', var)` accepts: the
identifier grammar, optionally followed by one trailing newline, because `$`
also matches just before a newline that ends the string. -/
def isIdentPy (s : List Char) : Bool :=
  isIdentCore s || (decide (s.getLast? = some '\n') && isIdentCore s.dropLast)

/-- Result of `TemplateEngine.validate_template`: the source returns
`{"valid": False, "error": "Empty template"}`, `{"valid": False, "error":
"Unbalanced braces"}`, `{"valid": False, "error": f"Invalid variable name:
{var}"}`, or `{"valid": True, "variables": variables}`; the four constructors
model those four dictionaries. -/
inductive ValidateResult where
  | emptyTemplate : ValidateResult
  | unbalanced : ValidateResult
  | invalidName : List Char → ValidateResult
  | ok : List (List Char) → ValidateResult
deriving DecidableEq

/-- `TemplateEngine.validate_template`. -/
def validateTemplate (t : List Char) : ValidateResult :=
  if t = [] then .emptyTemplate
  else if t.count lbrace ≠ t.count rbrace then .unbalanced
  else
    match (extractVariables t).find? (fun v => ! isIdentPy v) with
    | some v => .invalidName v
    | none => .ok (extractVariables t)

/-- ASCII lowering, the effect of Python `str.lower()` on filenames. -/
def toLowerAscii (c : Char) : Char :=
  if 'A' ≤ c ∧ c ≤ 'Z' then Char.ofNat (c.toNat + 32) else c

/-- Python `filename.lower()`. -/
def lowerStr (s : List Char) : List Char := s.map toLowerAscii

/-- ASCII raising, the effect of Python `str.upper()` on the extension
literals `'.mkv'` etc. -/
def toUpperAscii (c : Char) : Char :=
  if 'a' ≤ c ∧ c ≤ 'z' then Char.ofNat (c.toNat - 32) else c

/-- Python `ext.upper()`. -/
def upperStr (s : List Char) : List Char := s.map toUpperAscii

/-- Python `pat in s`: contiguous-substring test. -/
def containsSub (pat : List Char) : List Char → Bool
  | [] => decide (pat = [])
  | c :: rest => pat.isPrefixOf (c :: rest) || containsSub pat rest

/-- The fixed quality precedence list of `_extract_variables_from_file`. -/
def qualityList : List (List Char) :=
  [str "2160p", str "1440p", str "1080p", str "720p", str "480p",
   str "360p", str "240p", str "144p"]

/-- The quality-detection loop of `_extract_variables_from_file`: the first
list entry occurring anywhere in the lowered filename wins, else the default
`"1080p"` is kept. -/
def qualityOf (fl : List Char) : List Char :=
  match qualityList.find? (fun q => containsSub q fl) with
  | some q => q
  | none => str "1080p"

/-- Decides the regex class backslash-d on ASCII. -/
def isDigitChar (c : Char) : Bool := decide ('0' ≤ c ∧ c ≤ '9')

/-- Python `re.search(r's(\d+)e(\d+)', fl)` on the lowered filename: scan for
an `'s'` followed by one or more digits, an `'e'`, and one or more digits;
on failure at an `'s'`, scanning resumes at the next character (the digit
groups cannot backtrack because `'e'` is not a digit). -/
def findSE : List Char → Option (List Char × List Char)
  | [] => none
  | c :: rest =>
    if c = 's' then
      match rest.takeWhile isDigitChar, rest.drop (rest.takeWhile isDigitChar).length with
      | d :: ds, 'e' :: rest2 =>
        match rest2.takeWhile isDigitChar with
        | e :: es => some (d :: ds, e :: es)
        | [] => findSE rest
      | _, _ => findSE rest
    else findSE rest

/-- Python `s.zfill(2)`: pad with leading zeros to length at least two. -/
def zfill2 (s : List Char) : List Char :=
  List.replicate (2 - s.length) '0' ++ s

/-- The known video extensions stripped from titles. -/
def videoExts : List (List Char) :=
  [str ".mkv", str ".mp4", str ".avi", str ".mov", str ".wmv", str ".flv"]

/-- Python `re.sub(r'\[.*?\]', '', s)` (and the `\(.*?\)` variant): scanning
left to right, from each opening delimiter the non-greedy `.*?` runs to the
nearest closing delimiter with no intervening newline (`.` does not match a
newline); the interior may be empty.  Fuel is the input length. -/
def removeDelimAux (o c : Char) : Nat → List Char → List Char
  | _, [] => []
  | 0, s => s
  | fuel + 1, x :: rest =>
    if x = o then
      match rest.dropWhile (fun y => y ≠ c ∧ y ≠ '\n') with
      | y :: tail => if y = c then removeDelimAux o c fuel tail
                     else x :: removeDelimAux o c fuel rest
      | [] => x :: removeDelimAux o c fuel rest
    else x :: removeDelimAux o c fuel rest

/-- `re.sub` with pattern `\[.*?\]` or `\(.*?\)` and empty replacement. -/
def removeDelim (o c : Char) (s : List Char) : List Char := removeDelimAux o c s.length s

/-- The title computation of `_extract_variables_from_file`: strip each known
extension (lower case then upper case, by unanchored substring removal),
remove bracketed and parenthesised groups, strip whitespace. -/
def titleOf (filename : List Char) : List Char :=
  stripWs (removeDelim '(' ')' (removeDelim '[' ']'
    (videoExts.foldl (fun acc ext => replaceAll (upperStr ext) [] (replaceAll ext [] acc))
      filename)))

/-- Read-only view of an uploaded file: `file_name` may be absent (`None` or
missing attribute), `file_unique_id` is the transfer-layer identifier. -/
structure FileDesc where
  fileName : Option (List Char)
  uniqueId : List Char

/-- `FileProcessor._extract_variables_from_file`: the default variable map in
its insertion order, with quality, season/episode and title overridden by the
detection rules when the filename is present and non-empty. -/
def extractVariablesFromFile (f : FileDesc) : List (List Char × List Char) :=
  let filename := f.fileName.getD []
  if filename = [] then
    [(str "title", str "Unknown"), (str "season", str "01"), (str "episode", str "01"),
     (str "audio", str "AAC"), (str "quality", str "1080p"), (str "volume", []),
     (str "chapter", str "01"), (str "year", str "2024"),
     (str "resolution", str "1920x1080"), (str "codec", str "H264")]
  else
    let fl := lowerStr filename
    let se := findSE fl
    let season := match se with | some p => zfill2 p.1 | none => str "01"
    let episode := match se with | some p => zfill2 p.2 | none => str "01"
    let t := titleOf filename
    let title := if t = [] then str "Unknown" else t
    [(str "title", title), (str "season", season), (str "episode", episode),
     (str "audio", str "AAC"), (str "quality", qualityOf fl), (str "volume", []),
     (str "chapter", str "01"), (str "year", str "2024"),
     (str "resolution", str "1920x1080"), (str "codec", str "H264")]

/-- Python `original_name.split('.')[-1]`: the segment after the last dot
(the whole string when no dot is present). -/
def afterLastDot (s : List Char) : List Char :=
  (s.reverse.takeWhile (fun c => c ≠ '.')).reverse

/-- The extension-appending block shared verbatim by `_generate_auto_filename`
and `_generate_manual_filename`: when the original name is non-empty and
contains a dot, append `'.' + extension` unless the produced name already ends
with it. -/
def ensureExtension (name orig : List Char) : List Char :=
  if orig ≠ [] ∧ '.' ∈ orig then
    if ('.' :: afterLastDot orig).isSuffixOf name then name
    else name ++ '.' :: afterLastDot orig
  else name

/-- Per-user settings consumed by `process_file`: `rename_mode` (default
`'autorename'`), `template` (default empty) and the insertion-ordered
`replace_rules`. -/
structure Settings where
  renameMode : List Char
  template : List Char
  replaceRules : List (List Char × List Char)

/-- `FileProcessor._apply_replacements`: sequential literal replacement, each
rule applied to the previous rule's output. -/
def applyReplacements (name : List Char) (rules : List (List Char × List Char)) : List Char :=
  rules.foldl (fun acc r => replaceAll r.1 r.2 acc) name

/-- `FileProcessor._generate_auto_filename`. -/
def generateAutoFilename (f : FileDesc) (st : Settings) : List Char :=
  if st.template = [] then f.fileName.getD (str "file_" ++ f.uniqueId)
  else ensureExtension (applyTemplate st.template (extractVariablesFromFile f))
        (f.fileName.getD [])

/-- `FileProcessor._generate_manual_filename`. -/
def generateManualFilename (f : FileDesc) (caption : List Char) : List Char :=
  if caption ≠ [] ∧ stripWs caption ≠ [] then
    ensureExtension (sanitizeFilename (stripWs caption)) (f.fileName.getD [])
  else f.fileName.getD (str "file_" ++ f.uniqueId)

/-- `FileProcessor._generate_replace_filename`. -/
def generateReplaceFilename (f : FileDesc) (st : Settings) : List Char :=
  applyReplacements (f.fileName.getD (str "file_" ++ f.uniqueId)) st.replaceRules

/-- `FileProcessor._generate_filename`: mode dispatch (any mode other than
`'autorename'` and `'manual'` falls into the replace branch). -/
def generateFilename (f : FileDesc) (caption : List Char) (st : Settings) : List Char :=
  if st.renameMode = str "autorename" then generateAutoFilename f st
  else if st.renameMode = str "manual" then generateManualFilename f caption
  else generateReplaceFilename f st

/-- The pure filename computation of `FileProcessor.process_file`: the
mode-generated name followed by the unconditional `_apply_replacements`
post-processing pass (the value the source stores in `new_name`). -/
def processName (f : FileDesc) (caption : List Char) (st : Settings) : List Char :=
  applyReplacements (generateFilename f caption st) st.replaceRules

/-- Decimal digit to character. -/
def digitChar (d : Nat) : Char :=
  if d = 0 then '0' else if d = 1 then '1' else if d = 2 then '2'
  else if d = 3 then '3' else if d = 4 then '4' else if d = 5 then '5'
  else if d = 6 then '6' else if d = 7 then '7' else if d = 8 then '8' else '9'

/-- Decimal digits of a positive number, most significant first, with fuel
(the number itself always suffices). -/
def natDigitsAux : Nat → Nat → List Char
  | 0, _ => []
  | _ + 1, 0 => []
  | fuel + 1, n + 1 => natDigitsAux fuel ((n + 1) / 10) ++ [digitChar ((n + 1) % 10)]

/-- Python `f"{counter}"`: decimal rendering of a natural number. -/
def natChars (n : Nat) : List Char :=
  if n = 0 then ['0'] else natDigitsAux n n

/-- Python `new_name.rsplit('.', 1)` restricted to the two-part case: the
stem before and the extension after the last dot, or `none` when no dot. -/
def rsplitExt (name : List Char) : Option (List Char × List Char) :=
  if '.' ∈ name then
    some (((name.reverse.dropWhile (fun c => c ≠ '.')).tail).reverse, afterLastDot name)
  else none

/-- The counter-bearing candidate name built inside `_rename_file`'s loop:
`f"{stem}_{counter}.{ext}"` when the name splits at a dot, otherwise
`f"{name}_{counter}"`. -/
def candidate (name : List Char) (counter : Nat) : List Char :=
  match rsplitExt name with
  | some (stem, ext) => stem ++ '_' :: natChars counter ++ '.' :: ext
  | none => name ++ '_' :: natChars counter

/-- The `while new_path.exists()` loop of `_rename_file`, with the
destination directory modelled as the list of existing names; fuel bounds the
number of iterations (one more than the number of existing names always
suffices, by distinctness of the candidates). -/
def resolveLoop (existing : List (List Char)) (name : List Char) : Nat → Nat → List Char
  | counter, 0 => candidate name counter
  | counter, fuel + 1 =>
    if candidate name counter ∈ existing then resolveLoop existing name (counter + 1) fuel
    else candidate name counter

/-- The uniqueness-resolution behaviour of `FileProcessor._rename_file`: keep
the requested name when free, otherwise try `candidate 1`, `candidate 2`, …
until a free name is found. -/
def resolveCollision (existing : List (List Char)) (name : List Char) : List Char :=
  if name ∈ existing then resolveLoop existing name 1 (existing.length + 1) else name

/-- Scanner deciding whether the string still contains a complete placeholder
`"{w}"` with a non-empty `}`-free interior `w`. -/
def hasPlaceholder : List Char → Bool
  | c :: d :: rest =>
    if c = lbrace ∧ d ≠ rbrace ∧ rbrace ∈ rest then true else hasPlaceholder (d :: rest)
  | _ => false

/-- A string is run-normal for `p`/`rep` when every `p`-character in it is
`rep` and no two `p`-characters are adjacent; exactly the strings fixed by
`collapseRunsAux p rep false`. -/
def runsNormal (p : Char → Bool) (rep : Char) : List Char → Bool
  | [] => true
  | [c] => !(p c) || decide (c = rep)
  | c :: d :: rest =>
    ((!(p c) || decide (c = rep)) && !(p c && p d)) && runsNormal p rep (d :: rest)


/-- Neither the first nor the last character belongs to `set`; exactly the
strings fixed by `stripChars set`. -/
def noEdge (set : List Char) (s : List Char) : Bool :=
  (match s.head? with | none => true | some c => !(set.contains c)) &&
  (match s.getLast? with | none => true | some c => !(set.contains c))

/-- Neither the first nor the last character is whitespace; exactly the
strings fixed by `stripWs`. -/
def noEdgeWs (s : List Char) : Bool :=
  (match s.head? with | none => true | some c => !(isPySpace c)) &&
  (match s.getLast? with | none => true | some c => !(isPySpace c))

/-- Syntactic characterisation of strings already in `_clean_filename`'s
sanitised form: no invalid characters, whitespace-normal, no doubled
underscores, no stripped character at either edge, length at most 200. -/
def sanitizedClean (s : List Char) : Bool :=
  s.all (fun c => !(invalidChars.contains c)) && runsNormal isPySpace ' ' s &&
  !(containsDouble s) && noEdge [' ', '-', '_'] s && decide (s.length ≤ 200)

/-- Syntactic characterisation of strings already in `_sanitize_filename`'s
sanitised form: non-empty, no invalid characters, no doubled underscores, no
underscore or whitespace at either edge, length at most 200. -/
def sanitizedManual (s : List Char) : Bool :=
  s.all (fun c => !(invalidChars.contains c)) && !(containsDouble s) &&
  noEdge ['_'] s && noEdgeWs s && decide (s.length ≤ 200) && !(decide (s = []))

/-! ### General helper lemmas -/

/-- A `takeWhile` over an append stops exactly at the first failing element. -/
theorem takeWhile_append_all {p : Char → Bool} :
    ∀ (a : List Char) (x : Char) (b : List Char), (∀ c ∈ a, p c = true) → p x = false →
      (a ++ x :: b).takeWhile p = a := by
  intro a
  induction a with
  | nil => intro x b _ hx; simp [hx]
  | cons c a ih =>
    intro x b ha hx
    have hc : p c = true := ha c (by simp)
    simp only [List.cons_append, List.takeWhile_cons_of_pos hc]
    exact congrArg (c :: ·) (ih x b (fun d hd => ha d (by simp [hd])) hx)

/-- A `dropWhile` over an append drops exactly up to the first failing
element. -/
theorem dropWhile_append_all {p : Char → Bool} :
    ∀ (a : List Char) (x : Char) (b : List Char), (∀ c ∈ a, p c = true) → p x = false →
      (a ++ x :: b).dropWhile p = x :: b := by
  intro a
  induction a with
  | nil => intro x b _ hx; simp [hx]
  | cons c a ih =>
    intro x b ha hx
    have hc : p c = true := ha c (by simp)
    simp only [List.cons_append, List.dropWhile_cons_of_pos hc]
    exact ih x b (fun d hd => ha d (by simp [hd])) hx

/-- Membership in the first occurrence split produced by `dropWhile`. -/
theorem dropWhile_ne_of_mem {x : Char} :
    ∀ (l : List Char), x ∈ l → ∃ tail, l.dropWhile (fun y => y ≠ x) = x :: tail := by
  intro l
  induction l with
  | nil => intro h; simp at h
  | cons c rest ih =>
    intro h
    by_cases hc : c = x
    · subst hc; exact ⟨rest, by simp⟩
    · have : x ∈ rest := by
        rcases List.mem_cons.mp h with h' | h'
        · exact absurd h'.symm hc
        · exact h'
      obtain ⟨tail, ht⟩ := ih this
      exact ⟨tail, by simpa [List.dropWhile_cons, hc] using ht⟩

/-! ### Sanitiser fixed-point lemmas (claim C2) -/

/-- Unfolding equation for `collapseRunsAux` on a cons cell. -/
theorem collapseRunsAux_cons (p : Char → Bool) (rep : Char) (prev : Bool) (c : Char)
    (rest : List Char) :
    collapseRunsAux p rep prev (c :: rest) =
      if p c then (if prev then [] else [rep]) ++ collapseRunsAux p rep true rest
      else c :: collapseRunsAux p rep false rest := rfl

/-- Run collapsing fixes run-normal strings. -/
theorem collapseRunsAux_of_normal (p : Char → Bool) (rep : Char) :
    ∀ s : List Char, runsNormal p rep s = true → collapseRunsAux p rep false s = s := by
  intro s
  induction s with
  | nil => intro _; rfl
  | cons c rest ih =>
    intro h
    by_cases hc : p c = true
    · cases rest with
      | nil =>
        have hcrep : c = rep := by simpa [runsNormal, hc] using h
        rw [collapseRunsAux_cons, if_pos hc, hcrep]
        rfl
      | cons d r2 =>
        have h' : (c = rep ∧ p d = false) ∧ runsNormal p rep (d :: r2) = true := by
          simpa [runsNormal, hc] using h
        obtain ⟨⟨hcrep, hd⟩, hrest⟩ := h'
        have ht : collapseRunsAux p rep true (d :: r2) = d :: r2 := by
          have h2 := ih hrest
          rw [collapseRunsAux_cons, if_neg (by simp [hd])] at h2 ⊢
          exact h2
        rw [collapseRunsAux_cons, if_pos hc, ht, hcrep]
        rfl
    · have hrest : runsNormal p rep rest = true := by
        cases rest with
        | nil => rfl
        | cons d r2 => simpa [runsNormal, hc] using h
      rw [collapseRunsAux_cons, if_neg hc, ih hrest]

/-- Absence of doubled underscores gives run-normality for underscores. -/
theorem runsNormal_und_of_noDouble :
    ∀ s : List Char, containsDouble s = false →
      runsNormal (fun c => c = '_') '_' s = true := by
  intro s
  induction s with
  | nil => intro _; rfl
  | cons c rest ih =>
    intro h
    cases rest with
    | nil => simp [runsNormal]
    | cons d r2 =>
      have h' : ¬(c = '_' ∧ d = '_') ∧ containsDouble (d :: r2) = false := by
        simpa [containsDouble] using h
      simp [runsNormal, ih h'.2]
      by_cases hc : c = '_'
      · exact Or.inr (fun hd => h'.1 ⟨hc, hd⟩)
      · exact Or.inl hc

/-- A `dropWhile` whose predicate fails on the head (if any) is the
identity. -/
theorem dropWhile_id_of_head {p : Char → Bool} :
    ∀ s : List Char, (∀ c, s.head? = some c → p c = false) → s.dropWhile p = s := by
  intro s h
  cases s with
  | nil => rfl
  | cons c rest =>
    have hc : p c = false := h c rfl
    exact List.dropWhile_cons_of_neg (by simp [hc])

/-- `stripChars` fixes strings with clean edges. -/
theorem stripChars_of_noEdge (set : List Char) :
    ∀ s : List Char, noEdge set s = true → stripChars set s = s := by
  intro s h
  have hH : ∀ c, s.head? = some c → set.contains c = false := by
    intro c hc
    simp [noEdge, hc] at h
    simpa using h.1
  have hL : ∀ c, s.reverse.head? = some c → set.contains c = false := by
    intro c hc
    rw [List.head?_reverse] at hc
    simp [noEdge, hc] at h
    simpa using h.2
  have h1 : s.dropWhile (fun c => set.contains c) = s := dropWhile_id_of_head s hH
  rw [stripChars, h1]
  rw [dropWhile_id_of_head s.reverse hL, List.reverse_reverse]

/-- `stripWs` fixes strings with non-whitespace edges. -/
theorem stripWs_of_noEdgeWs :
    ∀ s : List Char, noEdgeWs s = true → stripWs s = s := by
  intro s h
  have hH : ∀ c, s.head? = some c → isPySpace c = false := by
    intro c hc
    simp [noEdgeWs, hc] at h
    simpa using h.1
  have hL : ∀ c, s.reverse.head? = some c → isPySpace c = false := by
    intro c hc
    rw [List.head?_reverse] at hc
    simp [noEdgeWs, hc] at h
    simpa using h.2
  have h1 : s.dropWhile isPySpace = s := dropWhile_id_of_head s hH
  rw [stripWs, h1]
  rw [dropWhile_id_of_head s.reverse hL, List.reverse_reverse]

theorem replaceChar_of_not_mem (old new : Char) :
    ∀ s : List Char, old ∉ s → replaceChar old new s = s := by
  intro s h
  rw [replaceChar]
  conv_rhs => rw [← List.map_id s]
  refine List.map_congr_left ?_
  intro c hc
  have : c ≠ old := fun he => h (he ▸ hc)
  simp [this]

/-- The invalid-character pass fixes strings containing no invalid
character. -/
theorem replaceInvalid_of_all_valid :
    ∀ s : List Char, (∀ c ∈ s, c ∉ invalidChars) → replaceInvalid s = s := by
  have main : ∀ (cs : List Char) (s : List Char), (∀ c ∈ s, c ∉ cs) →
      cs.foldl (fun acc c => replaceChar c '_' acc) s = s := by
    intro cs
    induction cs with
    | nil => intro s _; rfl
    | cons c cs ih =>
      intro s hs
      have hstep : replaceChar c '_' s = s :=
        replaceChar_of_not_mem c '_' s (fun hc => (hs c hc) (by simp))
      simp only [List.foldl_cons, hstep]
      exact ih s (fun d hd hdcs => (hs d hd) (by simp [hdcs]))
  intro s h
  exact main invalidChars s h

/-- The double-underscore loop stops immediately on strings without doubled
underscores. -/
theorem collapseLoop_of_noDouble (n : Nat) (s : List Char) (h : containsDouble s = false) :
    collapseLoop (n + 1) s = s := by
  simp [collapseLoop, h]

/-- Claim C2 (amended): sanitising an already-sanitised string returns it
unchanged — for every string in the syntactically sanitised form of the
respective profile, `_clean_filename` (FilenameClean) and
`_sanitize_filename` (ManualStrict) are the identity.  (Unrestricted
idempotence fails; see the counterexample.) -/
theorem c2_amended :
    (∀ s : List Char, sanitizedClean s = true → cleanFilename s = s) ∧
    (∀ s : List Char, sanitizedManual s = true → sanitizeFilename s = s) := by
  constructor
  · intro s h
    rw [sanitizedClean, Bool.and_eq_true, Bool.and_eq_true, Bool.and_eq_true,
      Bool.and_eq_true] at h
    obtain ⟨⟨⟨⟨hall, hws⟩, hdbl⟩, hedge⟩, hlen⟩ := h
    have hvalid : ∀ c ∈ s, c ∉ invalidChars := by
      intro c hc
      have := (List.all_eq_true.mp hall) c hc
      simpa using this
    have hdbl' : containsDouble s = false := by simpa using hdbl
    have h1 : collapseWs s = s := collapseRunsAux_of_normal isPySpace ' ' s hws
    have h2 : stripChars [' ', '-', '_'] s = s := stripChars_of_noEdge _ s hedge
    have h3 : replaceInvalid s = s := replaceInvalid_of_all_valid s hvalid
    have h4 : collapseUnd s = s := by
      rw [collapseUnd]
      exact collapseRunsAux_of_normal _ '_' s (runsNormal_und_of_noDouble s hdbl')
    have hlen' : s.length ≤ 200 := of_decide_eq_true hlen
    rw [cleanFilename, collapseWs] at *
    rw [h1, h2, h3, h4, List.take_of_length_le hlen']
  · intro s h
    rw [sanitizedManual, Bool.and_eq_true, Bool.and_eq_true, Bool.and_eq_true,
      Bool.and_eq_true, Bool.and_eq_true] at h
    obtain ⟨⟨⟨⟨⟨hall, hdbl⟩, hedge⟩, hedgeW⟩, hlen⟩, hne⟩ := h
    have hvalid : ∀ c ∈ s, c ∉ invalidChars := by
      intro c hc
      have := (List.all_eq_true.mp hall) c hc
      simpa using this
    have hdbl' : containsDouble s = false := by simpa using hdbl
    have hne' : s ≠ [] := by simpa using hne
    have hlen' : s.length ≤ 200 := of_decide_eq_true hlen
    have hinv : replaceInvalid s = s := replaceInvalid_of_all_valid s hvalid
    have hcore : sanitizeCore s = s := by
      rw [sanitizeCore, hinv, collapseLoop_of_noDouble s.length s hdbl',
        stripChars_of_noEdge _ s hedge, stripWs_of_noEdgeWs s hedgeW,
        List.take_of_length_le hlen']
    rw [sanitizeFilename, hcore, if_neg hne']

/-- Claim C2 (counterexample): sanitisation is not idempotent in either
profile — `_clean_filename` turns `"?a"` into `"_a"` and `"_a"` into `"a"`,
and `_sanitize_filename` turns `" _a"` into `"_a"` and `"_a"` into `"a"`. -/
theorem c2_counterexample :
    cleanFilename (cleanFilename (str "?a")) ≠ cleanFilename (str "?a") ∧
    sanitizeFilename (sanitizeFilename (str " _a")) ≠ sanitizeFilename (str " _a") :=
  ⟨by decide, by decide⟩

/-- Witness instantiating `c2_amended` at concrete sanitised strings. -/
theorem c2_amended_witness :
    cleanFilename (str "a-b c") = str "a-b c" ∧ sanitizeFilename (str "a_b") = str "a_b" :=
  ⟨c2_amended.1 (str "a-b c") (by decide), c2_amended.2 (str "a_b") (by decide)⟩

/-! ### Variable extraction on the specification's example (claim C1) -/

/-- Claim C1 (counterexample): on `"The.Show.S01E05.1080p.mkv"` the extracted
title is not `"The.Show"` — only extensions and bracket groups are stripped,
so the season, episode and quality text stays in the title. -/
theorem c1_counterexample :
    ¬ ((extractVariablesFromFile ⟨some (str "The.Show.S01E05.1080p.mkv"), str "uid"⟩).lookup
        (str "title") = some (str "The.Show")) := by decide

/-- Claim C1 (amended): `extract("The.Show.S01E05.1080p.mkv")` yields
season `"01"`, episode `"05"`, quality `"1080p"`, and title
`"The.Show.S01E05.1080p"` (the filename with only the `.mkv` extension
stripped). -/
theorem c1_amended :
    (extractVariablesFromFile ⟨some (str "The.Show.S01E05.1080p.mkv"), str "uid"⟩).lookup
        (str "season") = some (str "01") ∧
    (extractVariablesFromFile ⟨some (str "The.Show.S01E05.1080p.mkv"), str "uid"⟩).lookup
        (str "episode") = some (str "05") ∧
    (extractVariablesFromFile ⟨some (str "The.Show.S01E05.1080p.mkv"), str "uid"⟩).lookup
        (str "quality") = some (str "1080p") ∧
    (extractVariablesFromFile ⟨some (str "The.Show.S01E05.1080p.mkv"), str "uid"⟩).lookup
        (str "title") = some (str "The.Show.S01E05.1080p") := by
  refine ⟨by decide, by decide, by decide, by decide⟩

/-! ### Template validation (claim C3) -/

/-- Claim C3 (counterexample): the empty template does not succeed — it fails
with the dedicated `"Empty template"` error although its brace counts are
equal — and `"{a\n}"` succeeds although `"a\n"` does not match
`[A-Za-z_][A-Za-z0-9_]*` (Python's `$` also matches before a trailing
newline). -/
theorem c3_counterexample :
    validateTemplate [] = .emptyTemplate ∧
    validateTemplate (str "\x7ba\n\x7d") = .ok [str "a\n"] :=
  ⟨by decide, by decide⟩

/-- Claim C3 (amended): `validate` fails with the dedicated `EmptyTemplate`
error on the empty template; otherwise it fails with `UnbalancedBraces`
exactly when the counts of the two brace characters differ; otherwise it
fails with `InvalidVariableName`, naming an extracted placeholder name, when
some extracted name does not match `[A-Za-z_][A-Za-z0-9_]*` optionally
followed by one trailing newline; and otherwise succeeds with the
deduplicated list of placeholder names.  The specification's two concrete
examples behave as stated. -/
theorem c3_amended :
    (∀ t : List Char,
      (t = [] → validateTemplate t = .emptyTemplate) ∧
      (t ≠ [] → t.count lbrace ≠ t.count rbrace → validateTemplate t = .unbalanced) ∧
      (t ≠ [] → t.count lbrace = t.count rbrace →
        (∀ v ∈ extractVariables t, isIdentPy v = true) →
        validateTemplate t = .ok (extractVariables t)) ∧
      (t ≠ [] → t.count lbrace = t.count rbrace →
        (∃ v ∈ extractVariables t, isIdentPy v = false) →
        ∃ v ∈ extractVariables t, isIdentPy v = false ∧
          validateTemplate t = .invalidName v)) ∧
    validateTemplate (str "\x7b1abc\x7d") = .invalidName (str "1abc") ∧
    validateTemplate (str "\x7ba\x7d\x7bb") = .unbalanced := by
  refine ⟨fun t => ⟨?_, ?_, ?_, ?_⟩, by decide, by decide⟩
  · intro h
    simp [validateTemplate, h]
  · intro h1 h2
    simp [validateTemplate, h1, h2]
  · intro h1 h2 h3
    have hf : (extractVariables t).find? (fun v => ! isIdentPy v) = none := by
      rw [List.find?_eq_none]
      intro x hx
      simp [h3 x hx]
    simp [validateTemplate, h1, h2, hf]
  · intro h1 h2 h3
    obtain ⟨v0, hv0, hv0f⟩ := h3
    cases hfind : (extractVariables t).find? (fun v => ! isIdentPy v) with
    | none =>
      rw [List.find?_eq_none] at hfind
      exact absurd (hfind v0 hv0) (by simp [hv0f])
    | some v =>
      refine ⟨v, List.mem_of_find?_eq_some hfind, ?_, ?_⟩
      · have := List.find?_some hfind
        simpa using this
      · simp [validateTemplate, h1, h2, hfind]

/-- Witness instantiating `c3_amended` on concrete templates for each
conditional branch. -/
theorem c3_amended_witness :
    validateTemplate [] = .emptyTemplate ∧
    validateTemplate (str "\x7bx") = .unbalanced ∧
    validateTemplate (str "\x7bab\x7d") = .ok [str "ab"] ∧
    (∃ v ∈ extractVariables (str "\x7b1a\x7d"), isIdentPy v = false ∧
      validateTemplate (str "\x7b1a\x7d") = .invalidName v) :=
  ⟨(c3_amended.1 []).1 rfl,
   (c3_amended.1 (str "\x7bx")).2.1 (by decide) (by decide),
   (c3_amended.1 (str "\x7bab\x7d")).2.2.1 (by decide) (by decide) (by decide),
   (c3_amended.1 (str "\x7b1a\x7d")).2.2.2 (by decide) (by decide)
     ⟨str "1a", by decide, by decide⟩⟩

/-! ### Manual-mode fallback (claim C4) -/

/-- Claim C4 (counterexample): with the non-empty caption `"???"` (whose
ManualStrict sanitisation core is empty) and original filename
`"video.mp4"`, manual mode produces `"renamed_file.mp4"`, not the original
filename. -/
theorem c4_counterexample :
    generateManualFilename ⟨some (str "video.mp4"), str "uid"⟩ (str "???")
        = str "renamed_file.mp4" ∧
    str "renamed_file.mp4" ≠ str "video.mp4" :=
  ⟨by decide, by decide⟩

/-- Claim C4 (amended): in manual mode, when the caption is non-empty after
trimming but its ManualStrict sanitisation core is empty, the resulting
filename is the fixed fallback `"renamed_file"` with the original extension
appended when present — never the original filename or the unique-id
fallback. -/
theorem c4_amended (f : FileDesc) (caption : List Char)
    (h1 : caption ≠ []) (h2 : stripWs caption ≠ [])
    (h3 : sanitizeCore (stripWs caption) = []) :
    generateManualFilename f caption
      = ensureExtension (str "renamed_file") (f.fileName.getD []) := by
  rw [generateManualFilename, if_pos ⟨h1, h2⟩, sanitizeFilename, if_pos h3]

/-- Witness instantiating `c4_amended` at caption `"???"` and original name
`"video.mp4"`. -/
theorem c4_amended_witness :
    str "???" ≠ [] ∧ stripWs (str "???") ≠ [] ∧ sanitizeCore (stripWs (str "???")) = [] ∧
    generateManualFilename ⟨some (str "video.mp4"), str "uid"⟩ (str "???")
      = ensureExtension (str "renamed_file") (str "video.mp4") :=
  ⟨by decide, by decide, by decide,
   c4_amended ⟨some (str "video.mp4"), str "uid"⟩ (str "???") (by decide) (by decide) (by decide)⟩

/-! ### Literal replacement lemmas (claims C5, C6) -/

/-- Unfolding equation for the replacement scan on a cons cell with positive
fuel. -/
theorem replaceAllAux_cons (p : Char) (ps rep : List Char) (fuel : Nat) (c : Char)
    (rest : List Char) :
    replaceAllAux p ps rep (fuel + 1) (c :: rest) =
      if (p :: ps).isPrefixOf (c :: rest) then
        rep ++ replaceAllAux p ps rep fuel (rest.drop ps.length)
      else c :: replaceAllAux p ps rep fuel rest := rfl

/-- The replacement scan does not depend on the fuel as long as the fuel
covers the input length. -/
theorem replaceAllAux_fuel_irrel (p : Char) (ps rep : List Char) :
    ∀ (f1 : Nat) (s : List Char) (f2 : Nat), s.length ≤ f1 → s.length ≤ f2 →
      replaceAllAux p ps rep f1 s = replaceAllAux p ps rep f2 s := by
  intro f1
  induction f1 with
  | zero =>
    intro s f2 h1 _
    have hs : s = [] := List.length_eq_zero.mp (Nat.le_zero.mp h1)
    subst hs
    cases f2 <;> rfl
  | succ f ih =>
    intro s f2 h1 h2
    cases s with
    | nil => cases f2 <;> rfl
    | cons c rest =>
      cases f2 with
      | zero => simp at h2
      | succ g =>
        have hr1 : rest.length ≤ f := by simp at h1; omega
        have hr2 : rest.length ≤ g := by simp at h2; omega
        have hd1 : (rest.drop ps.length).length ≤ f := by simp; omega
        have hd2 : (rest.drop ps.length).length ≤ g := by simp; omega
        rw [replaceAllAux_cons, replaceAllAux_cons]
        by_cases hp : (p :: ps).isPrefixOf (c :: rest)
        · rw [if_pos hp, if_pos hp, ih (rest.drop ps.length) g hd1 hd2]
        · rw [if_neg hp, if_neg hp, ih rest g hr1 hr2]

/-- The replacement scan is the identity on strings avoiding the pattern's
first character. -/
theorem replaceAllAux_of_not_head (p : Char) (ps rep : List Char) :
    ∀ (s : List Char) (fuel : Nat), (∀ x ∈ s, x ≠ p) →
      replaceAllAux p ps rep fuel s = s := by
  intro s
  induction s with
  | nil => intro fuel _; cases fuel <;> rfl
  | cons c rest ih =>
    intro fuel h
    cases fuel with
    | zero => rfl
    | succ f =>
      have hc : c ≠ p := h c (by simp)
      have hp : ¬ ((p :: ps).isPrefixOf (c :: rest) = true) := by
        rw [List.isPrefixOf_cons₂]
        simp only [Bool.and_eq_true, beq_iff_eq, not_and]
        exact fun he => absurd he.symm hc
      rw [replaceAllAux_cons, if_neg hp, ih f (fun x hx => h x (by simp [hx]))]

/-- `replace` with a pattern whose first character does not occur is the
identity. -/
theorem replaceAll_of_not_head (p : Char) (ps rep : List Char) (s : List Char)
    (h : ∀ x ∈ s, x ≠ p) : replaceAll (p :: ps) rep s = s :=
  replaceAllAux_of_not_head p ps rep s s.length h

/-- A replacement scan passes unchanged over a leading segment avoiding the
pattern's first character. -/
theorem replaceAll_append_no_head (p : Char) (ps rep : List Char) (a s : List Char)
    (h : ∀ x ∈ a, x ≠ p) :
    replaceAll (p :: ps) rep (a ++ s) = a ++ replaceAll (p :: ps) rep s := by
  have main : ∀ (a : List Char) (fuel : Nat) (s : List Char), (∀ x ∈ a, x ≠ p) →
      (a ++ s).length ≤ fuel →
      replaceAllAux p ps rep fuel (a ++ s) = a ++ replaceAllAux p ps rep fuel s := by
    intro a
    induction a with
    | nil => intro fuel s _ _; rfl
    | cons x a ih =>
      intro fuel s hx hlen
      cases fuel with
      | zero => simp at hlen
      | succ f =>
        have hxp : x ≠ p := hx x (by simp)
        have hp : ¬ ((p :: ps).isPrefixOf (x :: (a ++ s)) = true) := by
          rw [List.isPrefixOf_cons₂]
          simp only [Bool.and_eq_true, beq_iff_eq, not_and]
          exact fun he => absurd he.symm hxp
        have hlf : (a ++ s).length ≤ f := by simp at hlen ⊢; omega
        rw [List.cons_append, replaceAllAux_cons, if_neg hp,
          ih f s (fun y hy => hx y (by simp [hy])) hlf]
        rw [replaceAllAux_fuel_irrel p ps rep f s (f + 1) (by simp at hlf; omega) (by simp at hlf; omega)]
        rfl
  rw [replaceAll, replaceAll, main a (a ++ s).length s h (Nat.le_refl _)]
  rw [replaceAllAux_fuel_irrel p ps rep (a ++ s).length s s.length (by simp) (Nat.le_refl _)]

/-- A replacement scan starting exactly at an occurrence of the pattern
replaces it and continues after it. -/
theorem replaceAll_self_append (p : Char) (ps rep b : List Char) :
    replaceAll (p :: ps) rep ((p :: ps) ++ b) = rep ++ replaceAll (p :: ps) rep b := by
  have hp : (p :: ps).isPrefixOf (p :: (ps ++ b)) = true := by
    rw [List.isPrefixOf_iff_prefix, ← List.cons_append]
    exact List.prefix_append _ _
  rw [replaceAll]
  have : ((p :: ps) ++ b).length = (ps ++ b).length + 1 := by simp
  rw [this, List.cons_append, replaceAllAux_cons, if_pos hp, List.drop_left]
  rw [replaceAll, replaceAllAux_fuel_irrel p ps rep (ps ++ b).length b b.length (by simp) (Nat.le_refl _)]

/-- Full replacement of a single occurrence flanked by text avoiding the
pattern's first character. -/
theorem replaceAll_single_occurrence (p : Char) (ps rep a b : List Char)
    (ha : ∀ x ∈ a, x ≠ p) (hb : ∀ x ∈ b, x ≠ p) :
    replaceAll (p :: ps) rep (a ++ (p :: ps) ++ b) = a ++ rep ++ b := by
  rw [List.append_assoc, replaceAll_append_no_head p ps rep a ((p :: ps) ++ b) ha,
    replaceAll_self_append, replaceAll_of_not_head p ps rep b hb, List.append_assoc]

/-- Unfolding equation for the brace-group scan on a non-brace head. -/
theorem removeBraceAux_cons_ne (fuel : Nat) (c : Char) (rest : List Char) (hc : c ≠ lbrace) :
    removeBraceAux (fuel + 1) (c :: rest) = c :: removeBraceAux fuel rest := by
  simp only [removeBraceAux, if_neg hc]

/-- The brace-group removal pass is the identity on strings with no opening
brace. -/
theorem removeBraceAux_no_lb :
    ∀ (s : List Char) (fuel : Nat), lbrace ∉ s → removeBraceAux fuel s = s := by
  intro s
  induction s with
  | nil => intro fuel _; cases fuel <;> rfl
  | cons c rest ih =>
    intro fuel h
    have hc : c ≠ lbrace := fun he => h (by simp [he])
    cases fuel with
    | zero => rfl
    | succ f => rw [removeBraceAux_cons_ne f c rest hc, ih f (fun hm => h (by simp [hm]))]

/-! ### Placeholder substitution is not verbatim (claim C5) -/

/-- Claim C5 (counterexample): a value containing placeholder-shaped text is
not preserved verbatim — `apply("{title}", {"title": "a{b}c"})` yields
`"ac"`, the braces and the text between them being removed by the cleanup
pass after substitution. -/
theorem c5_counterexample :
    applyTemplate (str "\x7btitle\x7d") [(str "title", str "a\x7bb\x7dc")] = str "ac" ∧
    str "ac" ≠ str "a\x7bb\x7dc" :=
  ⟨by decide, by decide⟩

/-- Claim C5 (amended): a placeholder whose name is a key of the map is
replaced by the stringified value, and the value's characters reach the
sanitiser verbatim provided the value (and the surrounding template text)
contains no opening brace; placeholder-shaped text inside a value is instead
substituted again or removed by the cleanup pass.  Sanitisation happens only
afterward, on the substituted string. -/
theorem c5_amended (n v a b : List Char)
    (ha : lbrace ∉ a) (hv : lbrace ∉ v) (hb : lbrace ∉ b) :
    applyTemplate (a ++ (lbrace :: (n ++ [rbrace])) ++ b) [(n, v)]
      = if cleanFilename (a ++ v ++ b) = [] then str "renamed_file"
        else cleanFilename (a ++ v ++ b) := by
  have hne : a ++ (lbrace :: (n ++ [rbrace])) ++ b ≠ [] := by simp
  have hsub : (([(n, v)] : List (List Char × List Char)).foldl
      (fun acc nv => replaceAll (lbrace :: nv.1 ++ [rbrace]) nv.2 acc)
      (a ++ (lbrace :: (n ++ [rbrace])) ++ b)) = a ++ v ++ b := by
    show replaceAll (lbrace :: (n ++ [rbrace])) v (a ++ (lbrace :: (n ++ [rbrace])) ++ b)
        = a ++ v ++ b
    exact replaceAll_single_occurrence lbrace (n ++ [rbrace]) v a b
      (fun x hx he => ha (he ▸ hx)) (fun x hx he => hb (he ▸ hx))
  have hnb : lbrace ∉ a ++ v ++ b := by
    simp [List.mem_append, ha, hv, hb]
  rw [applyTemplate, if_neg hne, hsub, removeBraceGroups,
    removeBraceAux_no_lb (a ++ v ++ b) _ hnb]
  cases hcl : cleanFilename (a ++ v ++ b) with
  | nil => simp
  | cons c r => simp

/-- Witness instantiating `c5_amended`: with brace-free context and value,
the value flows through verbatim up to sanitisation. -/
theorem c5_amended_witness :
    applyTemplate (str "x" ++ (lbrace :: (str "title" ++ [rbrace])) ++ str "y")
        [(str "title", str "a-b")]
      = if cleanFilename (str "x" ++ str "a-b" ++ str "y") = [] then str "renamed_file"
        else cleanFilename (str "x" ++ str "a-b" ++ str "y") :=
  c5_amended (str "title") (str "a-b") (str "x") (str "y") (by decide) (by decide) (by decide)

/-! ### Quality detection (claim C7) -/

/-- A successful `find?` splits its list at the returned element, everything
before it failing the predicate. -/
theorem find?_split {α : Type} (p : α → Bool) :
    ∀ (l : List α) (x : α), l.find? p = some x →
      ∃ l1 l2, l = l1 ++ x :: l2 ∧ ∀ y ∈ l1, p y = false := by
  intro l
  induction l with
  | nil => intro x h; simp [List.find?] at h
  | cons a rest ih =>
    intro x h
    by_cases hp : p a
    · rw [List.find?_cons_of_pos _ hp] at h
      obtain rfl : a = x := by simpa using h
      exact ⟨[], rest, rfl, by simp⟩
    · rw [List.find?_cons_of_neg _ hp] at h
      obtain ⟨l1, l2, heq, hall⟩ := ih x h
      refine ⟨a :: l1, l2, by simp [heq], ?_⟩
      intro y hy
      rcases List.mem_cons.mp hy with rfl | hy'
      · simpa using hp
      · exact hall y hy'

/-- The extracted variable map always carries the quality computed by
`qualityOf` on the lowered filename. -/
theorem lookup_quality (f : FileDesc) :
    (extractVariablesFromFile f).lookup (str "quality")
      = some (qualityOf (lowerStr (f.fileName.getD []))) := by
  have e1 : (str "quality" == str "title") = false := by decide
  have e2 : (str "quality" == str "season") = false := by decide
  have e3 : (str "quality" == str "episode") = false := by decide
  have e4 : (str "quality" == str "audio") = false := by decide
  have e5 : (str "quality" == str "quality") = true := by decide
  by_cases h : f.fileName.getD [] = []
  · rw [extractVariablesFromFile, if_pos h, h]
    simp only [List.lookup, e1, e2, e3, e4, e5]
    decide
  · rw [extractVariablesFromFile, if_neg h]
    simp only [List.lookup, e1, e2, e3, e4, e5]

/-- Claim C7: the extracted quality is the first entry of the fixed list
2160p, 1440p, 1080p, 720p, 480p, 360p, 240p, 144p occurring case-insensitively
anywhere in the filename (list-order precedence), the default `"1080p"` being
kept when none occurs; `extract("clip.1080p.720p.mp4")` yields quality
`"1080p"`. -/
theorem c7_quality_precedence :
    (∀ fname uid : List Char,
      (∀ q ∈ qualityList, containsSub q (lowerStr fname) = false) →
      (extractVariablesFromFile ⟨some fname, uid⟩).lookup (str "quality")
        = some (str "1080p")) ∧
    (∀ fname uid q : List Char, q ∈ qualityList →
      containsSub q (lowerStr fname) = true →
      ∃ l1 l2 qr, qualityList = l1 ++ qr :: l2 ∧
        (extractVariablesFromFile ⟨some fname, uid⟩).lookup (str "quality") = some qr ∧
        containsSub qr (lowerStr fname) = true ∧
        ∀ x ∈ l1, containsSub x (lowerStr fname) = false) ∧
    (extractVariablesFromFile ⟨some (str "clip.1080p.720p.mp4"), str "u"⟩).lookup
        (str "quality") = some (str "1080p") := by
  refine ⟨?_, ?_, by decide⟩
  · intro fname uid hnone
    rw [lookup_quality]
    have hf : qualityList.find? (fun q => containsSub q (lowerStr fname)) = none := by
      rw [List.find?_eq_none]
      intro q hq
      simp [hnone q hq]
    simp [qualityOf, hf]
  · intro fname uid q hq hocc
    cases hf : qualityList.find? (fun q => containsSub q (lowerStr fname)) with
    | none =>
      rw [List.find?_eq_none] at hf
      exact absurd (hf q hq) (by simp [hocc])
    | some qr =>
      obtain ⟨l1, l2, heq, hall⟩ := find?_split _ qualityList qr hf
      refine ⟨l1, l2, qr, heq, ?_, ?_, hall⟩
      · rw [lookup_quality]
        simp [qualityOf, hf]
      · have := List.find?_some hf
        simpa using this

/-- Witness instantiating `c7_quality_precedence` where no quality occurs
(first conjunct) and where `"720p"` occurs (second conjunct). -/
theorem c7_quality_precedence_witness :
    (extractVariablesFromFile ⟨some (str "abc"), str "u"⟩).lookup (str "quality")
      = some (str "1080p") ∧
    (∃ l1 l2 qr, qualityList = l1 ++ qr :: l2 ∧
      (extractVariablesFromFile ⟨some (str "a.720p.b"), str "u"⟩).lookup (str "quality")
        = some qr ∧
      containsSub qr (lowerStr (str "a.720p.b")) = true ∧
      ∀ x ∈ l1, containsSub x (lowerStr (str "a.720p.b")) = false) :=
  ⟨c7_quality_precedence.1 (str "abc") (str "u") (by decide),
   c7_quality_precedence.2.1 (str "a.720p.b") (str "u") (str "720p") (by decide) (by decide)⟩

/-! ### Replacement-rule layering (claims C8, C10) -/

/-- Claim C8: in every rename mode the replacement rules run as an
unconditional post-processing pass over the mode-generated name,
sequentially in insertion order with each rule's literal replacement feeding
the next; hence in replace mode the rule set acts twice on the original
filename while autorename and manual outputs receive exactly one pass.  The
concrete instance shows the double application being observable. -/
theorem c8_replacement_layering :
    (∀ (f : FileDesc) (caption : List Char) (st : Settings),
      st.renameMode ≠ str "autorename" → st.renameMode ≠ str "manual" →
      processName f caption st =
        applyReplacements
          (applyReplacements (f.fileName.getD (str "file_" ++ f.uniqueId)) st.replaceRules)
          st.replaceRules) ∧
    (∀ (f : FileDesc) (caption : List Char) (st : Settings),
      st.renameMode = str "autorename" →
      processName f caption st = applyReplacements (generateAutoFilename f st) st.replaceRules) ∧
    (∀ (f : FileDesc) (caption : List Char) (st : Settings),
      st.renameMode = str "manual" →
      processName f caption st
        = applyReplacements (generateManualFilename f caption) st.replaceRules) ∧
    (∀ (name old new : List Char) (rest : List (List Char × List Char)),
      applyReplacements name ((old, new) :: rest)
        = applyReplacements (replaceAll old new name) rest) ∧
    processName ⟨some (str "a"), str "u"⟩ [] ⟨str "replace", [], [(str "a", str "ab")]⟩
      = str "abb" := by
  refine ⟨?_, ?_, ?_, ?_, by decide⟩
  · intro f caption st h1 h2
    rw [processName, generateFilename, if_neg h1, if_neg h2, generateReplaceFilename]
  · intro f caption st h1
    rw [processName, generateFilename, if_pos h1]
  · intro f caption st h2
    by_cases h1 : st.renameMode = str "autorename"
    · rw [h1] at h2
      exact absurd h2 (by decide)
    · rw [processName, generateFilename, if_neg h1, if_pos h2]
  · intro name old new rest
    rfl

/-- Witness instantiating each universally quantified conjunct of
`c8_replacement_layering` at concrete inputs. -/
theorem c8_replacement_layering_witness :
    processName ⟨some (str "n.txt"), str "u"⟩ [] ⟨str "replace", [], [(str "n", str "m")]⟩
      = applyReplacements (applyReplacements (str "n.txt") [(str "n", str "m")])
          [(str "n", str "m")] ∧
    processName ⟨some (str "n.txt"), str "u"⟩ [] ⟨str "autorename", [], []⟩
      = applyReplacements (generateAutoFilename ⟨some (str "n.txt"), str "u"⟩
          ⟨str "autorename", [], []⟩) [] ∧
    processName ⟨some (str "n.txt"), str "u"⟩ (str "cap") ⟨str "manual", [], []⟩
      = applyReplacements (generateManualFilename ⟨some (str "n.txt"), str "u"⟩ (str "cap")) [] ∧
    applyReplacements (str "aa") [(str "a", str "b"), (str "b", str "c")]
      = applyReplacements (replaceAll (str "a") (str "b") (str "aa")) [(str "b", str "c")] :=
  ⟨c8_replacement_layering.1 ⟨some (str "n.txt"), str "u"⟩ []
      ⟨str "replace", [], [(str "n", str "m")]⟩ (by decide) (by decide),
   c8_replacement_layering.2.1 ⟨some (str "n.txt"), str "u"⟩ [] ⟨str "autorename", [], []⟩ rfl,
   c8_replacement_layering.2.2.1 ⟨some (str "n.txt"), str "u"⟩ (str "cap")
      ⟨str "manual", [], []⟩ rfl,
   c8_replacement_layering.2.2.2.1 (str "aa") (str "a") (str "b") [(str "b", str "c")]⟩

/-- Claim C10: in autorename mode with a template set and in manual mode with
a non-empty caption, the original extension is appended to the generated name
inside the mode-specific generator, before the replacement-rule
post-processing pass; a rule whose old text matches the extension therefore
alters the just-appended extension, as the two concrete instances show
(rule `".mp4" → ""` strips the appended extension from both outputs). -/
theorem c10_extension_before_replacements :
    (∀ (f : FileDesc) (caption : List Char) (st : Settings),
      st.renameMode = str "autorename" → st.template ≠ [] →
      processName f caption st =
        applyReplacements
          (ensureExtension (applyTemplate st.template (extractVariablesFromFile f))
            (f.fileName.getD [])) st.replaceRules) ∧
    (∀ (f : FileDesc) (caption : List Char) (st : Settings),
      st.renameMode = str "manual" → caption ≠ [] → stripWs caption ≠ [] →
      processName f caption st =
        applyReplacements
          (ensureExtension (sanitizeFilename (stripWs caption)) (f.fileName.getD []))
          st.replaceRules) ∧
    processName ⟨some (str "video.mp4"), str "u"⟩ []
        ⟨str "autorename", str "\x7btitle\x7d", [(str ".mp4", [])]⟩ = str "video" ∧
    processName ⟨some (str "video.mp4"), str "u"⟩ (str "clip")
        ⟨str "manual", [], [(str ".mp4", [])]⟩ = str "clip" := by
  refine ⟨?_, ?_, by decide, by decide⟩
  · intro f caption st h1 h2
    rw [processName, generateFilename, if_pos h1, generateAutoFilename, if_neg h2]
  · intro f caption st h1 h2 h3
    by_cases h0 : st.renameMode = str "autorename"
    · rw [h0] at h1
      exact absurd h1 (by decide)
    · rw [processName, generateFilename, if_neg h0, if_pos h1, generateManualFilename,
        if_pos ⟨h2, h3⟩]

/-- Witness instantiating the two conditional conjuncts of
`c10_extension_before_replacements`. -/
theorem c10_extension_before_replacements_witness :
    processName ⟨some (str "video.mp4"), str "u"⟩ []
        ⟨str "autorename", str "\x7btitle\x7d", [(str ".mp4", [])]⟩ =
      applyReplacements
        (ensureExtension (applyTemplate (str "\x7btitle\x7d")
          (extractVariablesFromFile ⟨some (str "video.mp4"), str "u"⟩)) (str "video.mp4"))
        [(str ".mp4", [])] ∧
    processName ⟨some (str "video.mp4"), str "u"⟩ (str "clip")
        ⟨str "manual", [], [(str ".mp4", [])]⟩ =
      applyReplacements (ensureExtension (sanitizeFilename (stripWs (str "clip")))
        (str "video.mp4")) [(str ".mp4", [])] :=
  ⟨c10_extension_before_replacements.1 ⟨some (str "video.mp4"), str "u"⟩ []
      ⟨str "autorename", str "\x7btitle\x7d", [(str ".mp4", [])]⟩ rfl (by decide),
   c10_extension_before_replacements.2.1 ⟨some (str "video.mp4"), str "u"⟩ (str "clip")
      ⟨str "manual", [], [(str ".mp4", [])]⟩ rfl (by decide) (by decide)⟩

/-! ### Collision resolution (claim C9) -/

/-- The digit rendering does not depend on the fuel as long as the fuel
covers the number. -/
theorem natDigitsAux_fuel_irrel :
    ∀ (f1 : Nat) (n : Nat) (f2 : Nat), n ≤ f1 → n ≤ f2 →
      natDigitsAux f1 n = natDigitsAux f2 n := by
  intro f1
  induction f1 with
  | zero =>
    intro n f2 h1 _
    have : n = 0 := by omega
    subst this
    cases f2 <;> rfl
  | succ f ih =>
    intro n f2 h1 h2
    cases n with
    | zero => cases f2 <;> rfl
    | succ m =>
      cases f2 with
      | zero => omega
      | succ g =>
        show natDigitsAux f ((m + 1) / 10) ++ [digitChar ((m + 1) % 10)]
            = natDigitsAux g ((m + 1) / 10) ++ [digitChar ((m + 1) % 10)]
        have hdiv : (m + 1) / 10 < m + 1 := Nat.div_lt_self (by omega) (by omega)
        rw [ih ((m + 1) / 10) g (by omega) (by omega)]

/-- Unfolding of the digit rendering for a positive number with exact fuel. -/
theorem natDigitsAux_eq (n : Nat) (h : 0 < n) :
    natDigitsAux n n = natDigitsAux (n / 10) (n / 10) ++ [digitChar (n % 10)] := by
  cases n with
  | zero => omega
  | succ m =>
    show natDigitsAux m ((m + 1) / 10) ++ [digitChar ((m + 1) % 10)] = _
    have hdiv : (m + 1) / 10 < m + 1 := Nat.div_lt_self (by omega) (by omega)
    rw [natDigitsAux_fuel_irrel m ((m + 1) / 10) ((m + 1) / 10) (by omega) (Nat.le_refl _)]

/-- The digit rendering of a positive number is non-empty. -/
theorem natDigitsAux_ne_nil (n : Nat) (h : 0 < n) : natDigitsAux n n ≠ [] := by
  rw [natDigitsAux_eq n h]
  simp

/-- The character of a decimal digit determines the digit. -/
theorem digitChar_inj (d e : Nat) (hd : d < 10) (he : e < 10)
    (h : digitChar d = digitChar e) : d = e := by
  have hv : ∀ x, x < 10 → (digitChar x).toNat = 48 + x := by
    intro x hx
    interval_cases x <;> rfl
  have := congrArg Char.toNat h
  rw [hv d hd, hv e he] at this
  omega

/-- Digit characters are never a dot. -/
theorem digitChar_ne_dot (d : Nat) : digitChar d ≠ '.' := by
  rw [digitChar]
  split_ifs <;> decide

/-- Every character of a digit rendering is a digit character. -/
theorem natDigitsAux_chars :
    ∀ (fuel n : Nat) (c : Char), c ∈ natDigitsAux fuel n → ∃ d, d < 10 ∧ c = digitChar d := by
  intro fuel
  induction fuel with
  | zero => intro n c h; simp [natDigitsAux] at h
  | succ f ih =>
    intro n c h
    cases n with
    | zero => simp [natDigitsAux] at h
    | succ m =>
      rw [show natDigitsAux (f + 1) (m + 1)
          = natDigitsAux f ((m + 1) / 10) ++ [digitChar ((m + 1) % 10)] from rfl] at h
      rcases List.mem_append.mp h with h' | h'
      · exact ih ((m + 1) / 10) c h'
      · exact ⟨(m + 1) % 10, Nat.mod_lt _ (by omega), by simpa using h'⟩

/-- The decimal rendering never contains a dot. -/
theorem natChars_no_dot (n : Nat) : '.' ∉ natChars n := by
  rw [natChars]
  split_ifs with h
  · decide
  · intro hmem
    obtain ⟨d, _, hc⟩ := natDigitsAux_chars n n '.' hmem
    exact digitChar_ne_dot d hc.symm

/-- The digit rendering is injective. -/
theorem natDigitsAux_inj :
    ∀ (m n : Nat), natDigitsAux m m = natDigitsAux n n → m = n := by
  intro m
  induction m using Nat.strong_induction_on with
  | _ m ih =>
    intro n h
    cases Nat.eq_zero_or_pos m with
    | inl hm =>
      subst hm
      cases Nat.eq_zero_or_pos n with
      | inl hn => omega
      | inr hn => exact absurd h.symm (natDigitsAux_ne_nil n hn)
    | inr hm =>
      cases Nat.eq_zero_or_pos n with
      | inl hn =>
        subst hn
        exact absurd h (natDigitsAux_ne_nil m hm)
      | inr hn =>
        rw [natDigitsAux_eq m hm, natDigitsAux_eq n hn] at h
        obtain ⟨hpre, hsuf⟩ := List.append_inj' h (by simp)
        have hdig : m % 10 = n % 10 := by
          have := List.head_eq_of_cons_eq hsuf
          exact digitChar_inj _ _ (Nat.mod_lt _ (by omega)) (Nat.mod_lt _ (by omega)) this
        have hdivlt : m / 10 < m := Nat.div_lt_self hm (by omega)
        have hdiv : m / 10 = n / 10 := ih (m / 10) hdivlt (n / 10) hpre
        omega

/-- A digit rendering equal to the single character `'0'` forces the number
to be zero. -/
theorem natDigitsAux_eq_zero_char (n : Nat) (hn : 0 < n)
    (h : natDigitsAux n n = ['0']) : False := by
  have h2 : natDigitsAux (n / 10) (n / 10) ++ [digitChar (n % 10)]
      = ([] : List Char) ++ ['0'] := by
    rw [natDigitsAux_eq n hn] at h
    simpa using h
  obtain ⟨hpre, hsuf⟩ := List.append_inj' h2 (by simp)
  have hd0 : digitChar (n % 10) = digitChar 0 := by
    have : digitChar (n % 10) = '0' := by simpa using hsuf
    rw [this]
    decide
  have hmod : n % 10 = 0 :=
    digitChar_inj _ 0 (Nat.mod_lt _ (by omega)) (by omega) hd0
  have hdiv0 : n / 10 = 0 := by
    by_contra hne
    exact natDigitsAux_ne_nil (n / 10) (by omega) hpre
  omega

/-- Python's decimal rendering of a natural number is injective. -/
theorem natChars_inj (m n : Nat) (h : natChars m = natChars n) : m = n := by
  rw [natChars, natChars] at h
  split_ifs at h with hm hn hn
  · omega
  · exact absurd h.symm (fun he => natDigitsAux_eq_zero_char n (by omega) he)
  · exact absurd h (fun he => natDigitsAux_eq_zero_char m (by omega) he)
  · exact natDigitsAux_inj m n h

/-- `split('.')[-1]` on a name whose last dot is explicit. -/
theorem afterLastDot_append (a b : List Char) (hb : '.' ∉ b) :
    afterLastDot (a ++ '.' :: b) = b := by
  rw [afterLastDot]
  have hrev : (a ++ '.' :: b).reverse = b.reverse ++ '.' :: a.reverse := by simp
  rw [hrev, takeWhile_append_all b.reverse '.' a.reverse ?hall ?hdot, List.reverse_reverse]
  case hall =>
    intro c hc
    have hcb : c ∈ b := List.mem_reverse.mp hc
    simpa using fun he : c = '.' => hb (he ▸ hcb)
  case hdot => decide

/-- `rsplit('.', 1)` on a name whose last dot is explicit. -/
theorem rsplitExt_append (a b : List Char) (hb : '.' ∉ b) :
    rsplitExt (a ++ '.' :: b) = some (a, b) := by
  rw [rsplitExt, if_pos (by simp : '.' ∈ a ++ '.' :: b), afterLastDot_append a b hb]
  have hrev : (a ++ '.' :: b).reverse = b.reverse ++ '.' :: a.reverse := by simp
  rw [hrev, dropWhile_append_all b.reverse '.' a.reverse ?hall ?hdot]
  · simp
  case hall =>
    intro c hc
    have hcb : c ∈ b := List.mem_reverse.mp hc
    simpa using fun he : c = '.' => hb (he ▸ hcb)
  case hdot => decide

/-- The candidate shape when the name splits at its last dot. -/
theorem candidate_dot (a b : List Char) (k : Nat) (hb : '.' ∉ b) :
    candidate (a ++ '.' :: b) k = a ++ '_' :: natChars k ++ '.' :: b := by
  rw [candidate, rsplitExt_append a b hb]

/-- The candidate shape when the name has no dot. -/
theorem candidate_no_dot (name : List Char) (k : Nat) (h : '.' ∉ name) :
    candidate name k = name ++ '_' :: natChars k := by
  rw [candidate, rsplitExt, if_neg h]

/-- Distinct counters give distinct candidate names. -/
theorem candidate_inj (name : List Char) (j k : Nat)
    (h : candidate name j = candidate name k) : j = k := by
  rw [candidate, candidate] at h
  cases hsp : rsplitExt name with
  | none =>
    rw [hsp] at h
    have h1 : name ++ '_' :: natChars j = name ++ '_' :: natChars k := h
    have h2 := List.append_cancel_left h1
    have h3 : natChars j = natChars k := by simpa using h2
    exact natChars_inj j k h3
  | some p =>
    obtain ⟨stem, ext⟩ := p
    rw [hsp] at h
    have h1 : (stem ++ ('_' :: natChars j)) ++ ('.' :: ext)
        = (stem ++ ('_' :: natChars k)) ++ ('.' :: ext) := h
    have h2 : stem ++ ('_' :: natChars j) = stem ++ ('_' :: natChars k) :=
      List.append_cancel_right h1
    have h3 : '_' :: natChars j = '_' :: natChars k := List.append_cancel_left h2
    have h4 : natChars j = natChars k := by injection h3
    exact natChars_inj j k h4

/-- Busy candidates below `k` bound `k` by the number of existing names. -/
theorem candidates_bound (existing : List (List Char)) (name : List Char) (k : Nat)
    (hk : 1 ≤ k) (hbusy : ∀ j, 1 ≤ j → j < k → candidate name j ∈ existing) :
    k ≤ existing.length + 1 := by
  have hinj : Function.Injective (fun i : Nat => candidate name (i + 1)) := by
    intro i j hij
    have := candidate_inj name (i + 1) (j + 1) hij
    omega
  have hnodup : ((List.range (k - 1)).map (fun i => candidate name (i + 1))).Nodup :=
    List.Nodup.map hinj (List.nodup_range _)
  have hsub : ((List.range (k - 1)).map (fun i => candidate name (i + 1))).toFinset
      ⊆ existing.toFinset := by
    intro x hx
    rw [List.mem_toFinset] at hx ⊢
    rw [List.mem_map] at hx
    obtain ⟨i, hi, rfl⟩ := hx
    rw [List.mem_range] at hi
    exact hbusy (i + 1) (by omega) (by omega)
  have hcard := Finset.card_le_card hsub
  rw [List.toFinset_card_of_nodup hnodup] at hcard
  have hlen : existing.toFinset.card ≤ existing.length := existing.toFinset_card_le
  simp only [List.length_map, List.length_range] at hcard
  omega

/-- The collision loop returns the first free candidate at or above its
starting counter, given enough fuel. -/
theorem resolveLoop_finds (existing : List (List Char)) (name : List Char) :
    ∀ (fuel counter k : Nat), counter ≤ k → k ≤ counter + fuel →
      (∀ j, counter ≤ j → j < k → candidate name j ∈ existing) →
      candidate name k ∉ existing →
      resolveLoop existing name counter fuel = candidate name k := by
  intro fuel
  induction fuel with
  | zero =>
    intro counter k h1 h2 _ _
    have : k = counter := by omega
    subst this
    rfl
  | succ f ih =>
    intro counter k h1 h2 hbusy hfree
    by_cases hk : counter = k
    · subst hk
      show (if candidate name counter ∈ existing then resolveLoop existing name (counter + 1) f
          else candidate name counter) = candidate name counter
      rw [if_neg hfree]
    · have hcb : candidate name counter ∈ existing := hbusy counter (Nat.le_refl _) (by omega)
      show (if candidate name counter ∈ existing then resolveLoop existing name (counter + 1) f
          else candidate name counter) = candidate name k
      rw [if_pos hcb]
      exact ih (counter + 1) k (by omega) (by omega)
        (fun j hj1 hj2 => hbusy j (by omega) hj2) hfree

/-- Claim C9: when the requested name exists, collision resolution tries
`candidate 1`, `candidate 2`, … and returns the first free candidate; the
candidate inserts `_<counter>` before the final extension when the name has
one and appends it at the end otherwise; with existing `out.mp4` and
`out_1.mp4`, renaming to `out.mp4` yields `out_2.mp4`. -/
theorem c9_collision_resolution :
    (∀ (existing : List (List Char)) (name : List Char),
      name ∉ existing → resolveCollision existing name = name) ∧
    (∀ (existing : List (List Char)) (name : List Char) (k : Nat),
      name ∈ existing → 1 ≤ k →
      (∀ j, 1 ≤ j → j < k → candidate name j ∈ existing) →
      candidate name k ∉ existing →
      resolveCollision existing name = candidate name k) ∧
    (∀ (a b : List Char) (k : Nat), '.' ∉ b →
      candidate (a ++ '.' :: b) k = a ++ '_' :: natChars k ++ '.' :: b) ∧
    (∀ (name : List Char) (k : Nat), '.' ∉ name →
      candidate name k = name ++ '_' :: natChars k) ∧
    resolveCollision [str "out.mp4", str "out_1.mp4"] (str "out.mp4") = str "out_2.mp4" := by
  refine ⟨?_, ?_, candidate_dot, candidate_no_dot, by decide⟩
  · intro existing name h
    rw [resolveCollision, if_neg h]
  · intro existing name k hmem hk hbusy hfree
    have hbound : k ≤ existing.length + 1 := candidates_bound existing name k hk hbusy
    rw [resolveCollision, if_pos hmem]
    exact resolveLoop_finds existing name (existing.length + 1) 1 k hk (by omega) hbusy hfree

/-- Witness instantiating the conditional conjuncts of
`c9_collision_resolution` at concrete directories and names. -/
theorem c9_collision_resolution_witness :
    resolveCollision [str "x"] (str "y") = str "y" ∧
    resolveCollision [str "out.mp4", str "out_1.mp4"] (str "out.mp4")
      = candidate (str "out.mp4") 2 ∧
    candidate (str "out" ++ '.' :: str "mp4") 1 = str "out" ++ '_' :: natChars 1 ++ '.' :: str "mp4" ∧
    candidate (str "out") 3 = str "out" ++ '_' :: natChars 3 :=
  ⟨c9_collision_resolution.1 [str "x"] (str "y") (by decide),
   c9_collision_resolution.2.1 [str "out.mp4", str "out_1.mp4"] (str "out.mp4") 2
     (by decide) (by decide)
     (by
       intro j h1 h2
       have : j = 1 := by omega
       subst this
       decide)
     (by decide),
   c9_collision_resolution.2.2.1 (str "out") (str "mp4") 1 (by decide),
   c9_collision_resolution.2.2.2.1 (str "out") 3 (by decide)⟩

/-! ### No placeholder survives `apply_template` (claim C6) -/

/-- Scanner equation on two leading characters. -/
theorem hasPlaceholder_cons2 (c d : Char) (rest : List Char) :
    hasPlaceholder (c :: d :: rest)
      = if c = lbrace ∧ d ≠ rbrace ∧ rbrace ∈ rest then true
        else hasPlaceholder (d :: rest) := rfl

/-- A scanner hit survives prepending a character. -/
theorem hasPlaceholder_cons_true (x : Char) (l : List Char)
    (h : hasPlaceholder l = true) : hasPlaceholder (x :: l) = true := by
  cases l with
  | nil => exact absurd h (by simp [hasPlaceholder])
  | cons d r =>
    rw [hasPlaceholder_cons2]
    by_cases hx : x = lbrace ∧ d ≠ rbrace ∧ rbrace ∈ r
    · rw [if_pos hx]
    · rw [if_neg hx]
      exact h

/-- A scanner miss on a cons implies a miss on the tail. -/
theorem hasPlaceholder_tail (c : Char) (l : List Char)
    (h : hasPlaceholder (c :: l) = false) : hasPlaceholder l = false := by
  cases l with
  | nil => rfl
  | cons d r =>
    rw [hasPlaceholder_cons2] at h
    by_cases hc : c = lbrace ∧ d ≠ rbrace ∧ rbrace ∈ r
    · rw [if_pos hc] at h
      exact absurd h (by simp)
    · rwa [if_neg hc] at h

/-- Prepending a character that starts no placeholder preserves a scanner
miss. -/
theorem hasPlaceholder_cons_false (x : Char) (l : List Char)
    (hcond : ∀ d r, l = d :: r → ¬(x = lbrace ∧ d ≠ rbrace ∧ rbrace ∈ r))
    (hl : hasPlaceholder l = false) : hasPlaceholder (x :: l) = false := by
  cases l with
  | nil => rfl
  | cons d r =>
    rw [hasPlaceholder_cons2, if_neg (hcond d r rfl)]
    exact hl

/-- Splitting a list at the first occurrence of a character. -/
theorem mem_first_split (x : Char) (l : List Char) (h : x ∈ l) :
    ∃ tail, l = l.takeWhile (fun y => y ≠ x) ++ x :: tail
      ∧ ∀ y ∈ l.takeWhile (fun y => y ≠ x), y ≠ x := by
  obtain ⟨tail, ht⟩ := dropWhile_ne_of_mem l h
  refine ⟨tail, ?_, ?_⟩
  · have he : l.takeWhile (fun y => y ≠ x) ++ l.dropWhile (fun y => y ≠ x) = l :=
      List.takeWhile_append_dropWhile _ _
    rw [ht] at he
    exact he.symm
  · intro y hy
    have := List.mem_takeWhile_imp hy
    simpa using this

/-- A scanner hit yields an explicit placeholder decomposition. -/
theorem decomp_of_hasPlaceholder :
    ∀ s : List Char, hasPlaceholder s = true →
      ∃ a w b, w ≠ [] ∧ rbrace ∉ w ∧ s = a ++ lbrace :: (w ++ rbrace :: b) := by
  intro s
  induction s with
  | nil => intro h; exact absurd h (by simp [hasPlaceholder])
  | cons c rest ih =>
    intro h
    cases rest with
    | nil => exact absurd h (by simp [hasPlaceholder])
    | cons d r2 =>
      rw [hasPlaceholder_cons2] at h
      by_cases hc : c = lbrace ∧ d ≠ rbrace ∧ rbrace ∈ r2
      · obtain ⟨hcl, hd, hrb⟩ := hc
        obtain ⟨tail, hsplit, htw⟩ := mem_first_split rbrace r2 hrb
        refine ⟨[], d :: r2.takeWhile (fun y => y ≠ rbrace), tail, by simp, ?_, ?_⟩
        · intro hm
          rcases List.mem_cons.mp hm with he | hm2
          · exact hd he.symm
          · exact htw rbrace hm2 rfl
        · rw [hcl]
          simp only [List.nil_append, List.cons_append]
          rw [← hsplit]
      · rw [if_neg hc] at h
        obtain ⟨a, w, b, hw, hwr, heq⟩ := ih h
        exact ⟨c :: a, w, b, hw, hwr, by rw [heq]; rfl⟩

/-- An explicit placeholder decomposition makes the scanner hit. -/
theorem hasPlaceholder_of_decomp :
    ∀ (a w b : List Char), w ≠ [] → rbrace ∉ w →
      hasPlaceholder (a ++ lbrace :: (w ++ rbrace :: b)) = true := by
  intro a
  induction a with
  | nil =>
    intro w b hw hwr
    cases w with
    | nil => exact absurd rfl hw
    | cons w0 ws =>
      have hcond : lbrace = lbrace ∧ w0 ≠ rbrace ∧ rbrace ∈ ws ++ rbrace :: b :=
        ⟨rfl, fun he => hwr (by simp [he]), by simp⟩
      simp only [List.nil_append, List.cons_append]
      rw [hasPlaceholder_cons2, if_pos hcond]
  | cons x a2 ih =>
    intro w b hw hwr
    have ht := ih w b hw hwr
    simpa using hasPlaceholder_cons_true x _ ht

/-- A scanner hit in an infix is a hit in the whole string. -/
theorem hasPlaceholder_of_middle (t s : List Char) (hinf : t <:+: s)
    (ht : hasPlaceholder t = true) : hasPlaceholder s = true := by
  obtain ⟨pre, suf, hps⟩ := hinf
  obtain ⟨a, w, b, hw, hwr, heq⟩ := decomp_of_hasPlaceholder t ht
  subst heq
  rw [← hps]
  have hre : pre ++ (a ++ lbrace :: (w ++ rbrace :: b)) ++ suf
      = (pre ++ a) ++ lbrace :: (w ++ rbrace :: (b ++ suf)) := by simp
  rw [hre]
  exact hasPlaceholder_of_decomp (pre ++ a) w (b ++ suf) hw hwr

/-- A scanner miss transfers to any infix. -/
theorem noPh_of_middle (t s : List Char) (h : t <:+: s)
    (hs : hasPlaceholder s = false) : hasPlaceholder t = false := by
  cases hx : hasPlaceholder t with
  | false => rfl
  | true => simp [hasPlaceholder_of_middle t s h hx] at hs

/-- Characters in a collapsed string come from the input or are the
replacement character. -/
theorem collapseRunsAux_mem (p : Char → Bool) (rep : Char) :
    ∀ (s : List Char) (flag : Bool) (x : Char),
      x ∈ collapseRunsAux p rep flag s → x = rep ∨ x ∈ s := by
  intro s
  induction s with
  | nil => intro flag x hx; cases flag <;> simp [collapseRunsAux] at hx
  | cons c rest ih =>
    intro flag x hx
    rw [collapseRunsAux_cons] at hx
    by_cases hp : p c = true
    · rw [if_pos hp] at hx
      rcases List.mem_append.mp hx with h1 | h2
      · cases flag with
        | true => simp at h1
        | false =>
          left
          simpa using h1
      · rcases ih true x h2 with h | h
        · exact Or.inl h
        · exact Or.inr (by simp [h])
    · rw [if_neg hp] at hx
      rcases List.mem_cons.mp hx with h1 | h2
      · exact Or.inr (by simp [h1])
      · rcases ih false x h2 with h | h
        · exact Or.inl h
        · exact Or.inr (by simp [h])

/-- Run collapsing preserves the absence of placeholders, provided braces are
neither collapsed nor produced. -/
theorem noPh_collapseRuns (p : Char → Bool) (rep : Char)
    (hrlb : rep ≠ lbrace) (hrrb : rep ≠ rbrace)
    (hprb : p rbrace = false) :
    ∀ (s : List Char) (flag : Bool), hasPlaceholder s = false →
      hasPlaceholder (collapseRunsAux p rep flag s) = false := by
  intro s
  induction s with
  | nil => intro flag _; cases flag <;> rfl
  | cons c rest ih =>
    intro flag h
    have htail : hasPlaceholder rest = false := hasPlaceholder_tail c rest h
    rw [collapseRunsAux_cons]
    by_cases hp : p c = true
    · rw [if_pos hp]
      have hout : hasPlaceholder (collapseRunsAux p rep true rest) = false := ih true htail
      cases flag with
      | true => simpa using hout
      | false =>
        have : ((if false then [] else [rep]) : List Char) ++ collapseRunsAux p rep true rest
            = rep :: collapseRunsAux p rep true rest := rfl
        rw [this]
        refine hasPlaceholder_cons_false rep _ ?_ hout
        intro d r _ hcond
        exact hrlb hcond.1
    · rw [if_neg hp]
      by_cases hc : c = lbrace
      · subst hc
        cases rest with
        | nil => rfl
        | cons d r2 =>
          rw [hasPlaceholder_cons2] at h
          have hcond : ¬(lbrace = lbrace ∧ d ≠ rbrace ∧ rbrace ∈ r2) := by
            by_cases hx : lbrace = lbrace ∧ d ≠ rbrace ∧ rbrace ∈ r2
            · rw [if_pos hx] at h
              exact absurd h (by simp)
            · exact hx
          have hout : hasPlaceholder (collapseRunsAux p rep false (d :: r2)) = false :=
            ih false htail
          refine hasPlaceholder_cons_false lbrace _ ?_ hout
          intro d' r' hdr hcond'
          obtain ⟨_, hd', hrbr'⟩ := hcond'
          by_cases hdrb : d = rbrace
          · have hpd : p d = false := by rw [hdrb]; exact hprb
            rw [collapseRunsAux_cons, if_neg (by simp [hpd])] at hdr
            have : d' = d := (List.cons.injEq _ _ _ _ ▸ hdr).1.symm
            exact hd' (this.trans hdrb)
          · have hnrb : rbrace ∉ r2 := by
              intro hin
              exact hcond ⟨rfl, fun he => hdrb ((he ▸ rfl : d = rbrace)), hin⟩
            have hmem : rbrace ∈ collapseRunsAux p rep false (d :: r2) := by
              rw [hdr]
              exact List.mem_cons_of_mem d' hrbr'
            rcases collapseRunsAux_mem p rep (d :: r2) false rbrace hmem with he | hm
            · exact hrrb he.symm
            · rcases List.mem_cons.mp hm with he | hin
              · exact hdrb he.symm
              · exact hnrb hin
      · have hout := ih false htail
        refine hasPlaceholder_cons_false c _ ?_ hout
        intro d r _ hcond
        exact hc hcond.1

/-- A `dropWhile` keeping everything: all elements satisfy the predicate. -/
theorem dropWhile_nil_of_not_mem (x : Char) :
    ∀ l : List Char, x ∉ l → l.dropWhile (fun y => y ≠ x) = [] := by
  intro l
  induction l with
  | nil => intro _; rfl
  | cons c rest ih =>
    intro h
    have hc : c ≠ x := fun he => h (by simp [he])
    rw [List.dropWhile_cons_of_pos (by simpa using hc)]
    exact ih (fun hm => h (by simp [hm]))

/-- An empty `takeWhile` on a cons means the head fails the predicate. -/
theorem takeWhile_nil_head (x c : Char) (r : List Char)
    (h : (c :: r).takeWhile (fun y => y ≠ x) = []) : c = x := by
  by_contra hc
  rw [List.takeWhile_cons_of_pos (by simpa using hc)] at h
  simp at h

/-- Unfolding of the brace scan at an opening brace. -/
theorem removeBraceAux_lb (f : Nat) (rest : List Char) :
    removeBraceAux (f + 1) (lbrace :: rest)
      = if lbrace = lbrace then
          (match rest.dropWhile (fun y => y ≠ rbrace) with
           | _ :: tail =>
             if rest.takeWhile (fun y => y ≠ rbrace) = [] then lbrace :: removeBraceAux f rest
             else removeBraceAux f tail
           | [] => lbrace :: removeBraceAux f rest)
        else lbrace :: removeBraceAux f rest := rfl

/-- Unfolding of the brace scan at an opening brace with no closing brace
ahead. -/
theorem removeBraceAux_lb_nodrop (f : Nat) (rest : List Char)
    (h : rest.dropWhile (fun y => y ≠ rbrace) = []) :
    removeBraceAux (f + 1) (lbrace :: rest) = lbrace :: removeBraceAux f rest := by
  rw [removeBraceAux_lb, if_pos rfl, h]

/-- Unfolding of the brace scan at an opening brace immediately followed by a
closing brace (empty interior: no match). -/
theorem removeBraceAux_lb_emptyTw (f : Nat) (rest tail : List Char)
    (hdw : rest.dropWhile (fun y => y ≠ rbrace) = rbrace :: tail)
    (htw : rest.takeWhile (fun y => y ≠ rbrace) = []) :
    removeBraceAux (f + 1) (lbrace :: rest) = lbrace :: removeBraceAux f rest := by
  rw [removeBraceAux_lb, if_pos rfl, hdw]
  show (if rest.takeWhile (fun y => y ≠ rbrace) = [] then lbrace :: removeBraceAux f rest
      else removeBraceAux f tail) = lbrace :: removeBraceAux f rest
  rw [if_pos htw]

/-- Unfolding of the brace scan at a matched group. -/
theorem removeBraceAux_lb_group (f : Nat) (rest tail : List Char)
    (hdw : rest.dropWhile (fun y => y ≠ rbrace) = rbrace :: tail)
    (htw : rest.takeWhile (fun y => y ≠ rbrace) ≠ []) :
    removeBraceAux (f + 1) (lbrace :: rest) = removeBraceAux f tail := by
  rw [removeBraceAux_lb, if_pos rfl, hdw]
  show (if rest.takeWhile (fun y => y ≠ rbrace) = [] then lbrace :: removeBraceAux f rest
      else removeBraceAux f tail) = removeBraceAux f tail
  rw [if_neg htw]

/-- Characters of the brace-removal output come from the input. -/
theorem removeBraceAux_subset :
    ∀ (fuel : Nat) (s : List Char) (x : Char), x ∈ removeBraceAux fuel s → x ∈ s := by
  intro fuel
  induction fuel with
  | zero =>
    intro s x hx
    cases s with
    | nil =>
      rw [show removeBraceAux 0 ([] : List Char) = [] from rfl] at hx
      simp at hx
    | cons c rest => exact hx
  | succ f ih =>
    intro s x hx
    cases s with
    | nil =>
      rw [show removeBraceAux (f + 1) ([] : List Char) = [] from rfl] at hx
      simp at hx
    | cons c rest =>
      by_cases hc : c = lbrace
      · subst hc
        by_cases hrb : rbrace ∈ rest
        · obtain ⟨tail, hdw⟩ := dropWhile_ne_of_mem rest hrb
          by_cases htw : rest.takeWhile (fun y => y ≠ rbrace) = []
          · rw [removeBraceAux_lb_emptyTw f rest tail hdw htw] at hx
            rcases List.mem_cons.mp hx with h1 | h2
            · simp [h1]
            · exact List.mem_cons_of_mem _ (ih rest x h2)
          · rw [removeBraceAux_lb_group f rest tail hdw htw] at hx
            have hxt : x ∈ tail := ih tail x hx
            have hres : rest = rest.takeWhile (fun y => y ≠ rbrace) ++ rbrace :: tail := by
              have he : rest.takeWhile (fun y => y ≠ rbrace)
                  ++ rest.dropWhile (fun y => y ≠ rbrace) = rest :=
                List.takeWhile_append_dropWhile _ _
              rw [hdw] at he
              exact he.symm
            refine List.mem_cons_of_mem _ ?_
            rw [hres]
            simp [hxt]
        · rw [removeBraceAux_lb_nodrop f rest (dropWhile_nil_of_not_mem rbrace rest hrb)] at hx
          rcases List.mem_cons.mp hx with h1 | h2
          · simp [h1]
          · exact List.mem_cons_of_mem _ (ih rest x h2)
      · rw [removeBraceAux_cons_ne f c rest hc] at hx
        rcases List.mem_cons.mp hx with h1 | h2
        · simp [h1]
        · exact List.mem_cons_of_mem _ (ih rest x h2)

/-- The brace-removal pass leaves no complete placeholder behind. -/
theorem noPh_removeBrace :
    ∀ (fuel : Nat) (s : List Char), s.length ≤ fuel →
      hasPlaceholder (removeBraceAux fuel s) = false := by
  intro fuel
  induction fuel using Nat.strong_induction_on with
  | _ fuel ih =>
    intro s hlen
    cases fuel with
    | zero =>
      have hs : s = [] := by
        cases s with
        | nil => rfl
        | cons c r => simp at hlen
      subst hs
      rfl
    | succ f =>
      cases s with
      | nil => rfl
      | cons c rest =>
        have hrl : rest.length ≤ f := by simp at hlen; omega
        by_cases hc : c = lbrace
        · subst hc
          by_cases hrb : rbrace ∈ rest
          · obtain ⟨tail, hdw⟩ := dropWhile_ne_of_mem rest hrb
            by_cases htw : rest.takeWhile (fun y => y ≠ rbrace) = []
            · cases rest with
              | nil => simp at hrb
              | cons d r2 =>
                have hd : d = rbrace := takeWhile_nil_head rbrace d r2 htw
                subst hd
                rw [removeBraceAux_lb_emptyTw f (rbrace :: r2) tail hdw htw]
                cases f with
                | zero => simp at hrl
                | succ g =>
                  rw [removeBraceAux_cons_ne g rbrace r2 (by decide)]
                  have hr2 : r2.length ≤ g := by simp at hrl; omega
                  have hinner : hasPlaceholder (removeBraceAux g r2) = false :=
                    ih g (by omega) r2 hr2
                  rw [hasPlaceholder_cons2,
                    if_neg (fun hx => absurd rfl hx.2.1)]
                  refine hasPlaceholder_cons_false rbrace _ ?_ hinner
                  intro d' r' _ hx
                  exact absurd hx.1 (by decide)
            · rw [removeBraceAux_lb_group f rest tail hdw htw]
              have htl : tail.length ≤ f := by
                have hres : rest = rest.takeWhile (fun y => y ≠ rbrace) ++ rbrace :: tail := by
                  have he : rest.takeWhile (fun y => y ≠ rbrace)
                      ++ rest.dropWhile (fun y => y ≠ rbrace) = rest :=
                    List.takeWhile_append_dropWhile _ _
                  rw [hdw] at he
                  exact he.symm
                have := congrArg List.length hres
                simp at this
                omega
              exact ih f (by omega) tail htl
          · rw [removeBraceAux_lb_nodrop f rest (dropWhile_nil_of_not_mem rbrace rest hrb)]
            have hout : hasPlaceholder (removeBraceAux f rest) = false := ih f (by omega) rest hrl
            refine hasPlaceholder_cons_false lbrace _ ?_ hout
            intro d r hdr hx
            have : rbrace ∈ removeBraceAux f rest := by
              rw [hdr]
              exact List.mem_cons_of_mem d hx.2.2
            exact hrb (removeBraceAux_subset f rest rbrace this)
        · rw [removeBraceAux_cons_ne f c rest hc]
          have hout : hasPlaceholder (removeBraceAux f rest) = false := ih f (by omega) rest hrl
          refine hasPlaceholder_cons_false c _ ?_ hout
          intro d r _ hx
          exact hc hx.1

/-- A placeholder in a mapped string pulls back along a map that reflects and
preserves both brace characters. -/
theorem hasPlaceholder_map (φ : Char → Char)
    (hlb : ∀ c, φ c = lbrace ↔ c = lbrace) (hrb : ∀ c, φ c = rbrace ↔ c = rbrace)
    (s : List Char) (h : hasPlaceholder (s.map φ) = true) : hasPlaceholder s = true := by
  obtain ⟨a, w, b, hw, hwr, heq⟩ := decomp_of_hasPlaceholder _ h
  rw [show a ++ lbrace :: (w ++ rbrace :: b) = a ++ (lbrace :: w) ++ (rbrace :: b) from by
    simp] at heq
  obtain ⟨l12, l3, hsplit1, hm12, hm3⟩ := List.map_eq_append_iff.mp heq
  obtain ⟨l1, l2, hsplit2, hm1, hm2⟩ := List.map_eq_append_iff.mp hm12
  obtain ⟨c1, w', hl2, hc1, hw'⟩ := List.map_eq_cons_iff.mp hm2
  obtain ⟨c2, b', hl3, hc2, hb'⟩ := List.map_eq_cons_iff.mp hm3
  have hc1' : c1 = lbrace := (hlb c1).mp hc1
  have hc2' : c2 = rbrace := (hrb c2).mp hc2
  have hw'ne : w' ≠ [] := by
    intro he
    rw [he] at hw'
    exact hw (hw'.symm ▸ rfl)
  have hw'rb : rbrace ∉ w' := by
    intro hin
    have : φ rbrace ∈ w := by
      rw [← hw']
      exact List.mem_map_of_mem φ hin
    rw [(hrb rbrace).mpr rfl] at this
    exact hwr this
  have hs : s = l1 ++ lbrace :: (w' ++ rbrace :: b') := by
    rw [hsplit1, hsplit2, hl2, hl3, hc1', hc2']
    simp
  rw [hs]
  exact hasPlaceholder_of_decomp l1 w' b' hw'ne hw'rb

/-- A scanner miss transfers through such a map. -/
theorem noPh_map (φ : Char → Char)
    (hlb : ∀ c, φ c = lbrace ↔ c = lbrace) (hrb : ∀ c, φ c = rbrace ↔ c = rbrace)
    (s : List Char) (hs : hasPlaceholder s = false) : hasPlaceholder (s.map φ) = false := by
  cases hx : hasPlaceholder (s.map φ) with
  | false => rfl
  | true => simp [hasPlaceholder_map φ hlb hrb s hx] at hs

/-- The invalid-character pass as a character map. -/
def phiInv (c : Char) : Char := if c ∈ invalidChars then '_' else c

/-- The sequential single-character replacements of `replaceInvalid` equal a
single character map. -/
theorem replaceInvalid_eq_map : ∀ s : List Char, replaceInvalid s = s.map phiInv := by
  have main : ∀ (cs : List Char) (s : List Char),
      cs.foldl (fun acc c => replaceChar c '_' acc) s
        = s.map (fun x => cs.foldl (fun y c => if y = c then '_' else y) x) := by
    intro cs
    induction cs with
    | nil =>
      intro s
      simp [List.map_id]
    | cons c cs ih =>
      intro s
      simp only [List.foldl_cons]
      rw [show replaceChar c '_' s = s.map (fun x => if x = c then '_' else x) from rfl]
      rw [ih (s.map fun x => if x = c then '_' else x), List.map_map]
      rfl
  intro s
  rw [replaceInvalid, main invalidChars s]
  refine List.map_congr_left ?_
  intro c _
  by_cases h : c ∈ invalidChars
  · fin_cases h <;> rfl
  · rw [phiInv, if_neg h]
    simp only [invalidChars, List.mem_cons, List.not_mem_nil, or_false, not_or] at h
    obtain ⟨h1, h2, h3, h4, h5, h6, h7, h8, h9⟩ := h
    simp [invalidChars, List.foldl, h1, h2, h3, h4, h5, h6, h7, h8, h9]

/-- `phiInv` reflects and preserves the opening brace. -/
theorem phiInv_lb (c : Char) : phiInv c = lbrace ↔ c = lbrace := by
  by_cases h : c ∈ invalidChars
  · rw [phiInv, if_pos h]
    constructor
    · intro he
      exact absurd he (by decide)
    · intro he
      subst he
      exact absurd h (by decide)
  · rw [phiInv, if_neg h]

/-- `phiInv` reflects and preserves the closing brace. -/
theorem phiInv_rb (c : Char) : phiInv c = rbrace ↔ c = rbrace := by
  by_cases h : c ∈ invalidChars
  · rw [phiInv, if_pos h]
    constructor
    · intro he
      exact absurd he (by decide)
    · intro he
      subst he
      exact absurd h (by decide)
  · rw [phiInv, if_neg h]

/-- `stripChars` produces an infix of its input. -/
theorem stripChars_middle (set s : List Char) : stripChars set s <:+: s := by
  have h1 : s.dropWhile (fun c => set.contains c) <:+ s := List.dropWhile_suffix _
  have h2 : (s.dropWhile (fun c => set.contains c)).reverse.dropWhile (fun c => set.contains c)
      <:+ (s.dropWhile (fun c => set.contains c)).reverse := List.dropWhile_suffix _
  have h3 : stripChars set s <+: s.dropWhile (fun c => set.contains c) := by
    rw [stripChars]
    rw [← List.reverse_suffix]
    simpa using h2
  exact h3.isInfix.trans h1.isInfix

/-- The whole sanitiser preserves the absence of placeholders. -/
theorem noPh_cleanFilename (s : List Char) (h : hasPlaceholder s = false) :
    hasPlaceholder (cleanFilename s) = false := by
  have h1 : hasPlaceholder (collapseWs s) = false :=
    noPh_collapseRuns isPySpace ' ' (by decide) (by decide) (by decide) s false h
  have h2 : hasPlaceholder (stripChars [' ', '-', '_'] (collapseWs s)) = false :=
    noPh_of_middle _ _ (stripChars_middle _ _) h1
  have h3 : hasPlaceholder (replaceInvalid (stripChars [' ', '-', '_'] (collapseWs s)))
      = false := by
    rw [replaceInvalid_eq_map]
    exact noPh_map phiInv phiInv_lb phiInv_rb _ h2
  have h4 : hasPlaceholder (collapseUnd (replaceInvalid
      (stripChars [' ', '-', '_'] (collapseWs s)))) = false :=
    noPh_collapseRuns _ '_' (by decide) (by decide) (by decide) _ false h3
  exact noPh_of_middle _ _ (List.take_prefix _ _).isInfix h4

/-- Claim C6: placeholders whose names have no key in the variable map are
removed entirely — the output of `apply_template` never contains a complete
placeholder, for any template and any variable map — and no input is an
error; in particular `apply("{title}-{missing}", {"title": "X"})` returns
`"X"`. -/
theorem c6_missing_placeholders_removed :
    (∀ (t : List Char) (vars : List (List Char × List Char)),
      hasPlaceholder (applyTemplate t vars) = false) ∧
    applyTemplate (str "\x7btitle\x7d-\x7bmissing\x7d") [(str "title", str "X")] = str "X" := by
  refine ⟨?_, by decide⟩
  intro t vars
  rw [applyTemplate]
  by_cases ht : t = []
  · rw [if_pos ht]
    decide
  · rw [if_neg ht]
    have h1 : hasPlaceholder (removeBraceGroups
        (vars.foldl (fun acc nv => replaceAll (lbrace :: nv.1 ++ [rbrace]) nv.2 acc) t))
        = false :=
      noPh_removeBrace _ _ (Nat.le_refl _)
    have h2 := noPh_cleanFilename _ h1
    cases hcl : cleanFilename (removeBraceGroups
        (vars.foldl (fun acc nv => replaceAll (lbrace :: nv.1 ++ [rbrace]) nv.2 acc) t)) with
    | nil => decide
    | cons c r =>
      rw [hcl] at h2
      exact h2

/-- Witness instantiating `c6_missing_placeholders_removed` at a concrete
template and map. -/
theorem c6_missing_placeholders_removed_witness :
    hasPlaceholder (applyTemplate (str "\x7ba\x7d-\x7bmissing\x7d") [(str "a", str "V")])
      = false :=
  c6_missing_placeholders_removed.1 (str "\x7ba\x7d-\x7bmissing\x7d") [(str "a", str "V")]
